import Mathlib

/-!
# Verification of the `regex_dfa` automaton pipeline

This file gives a shallow embedding of the Rust sources of `regex_dfa`
(`src/parser.rs`, `src/error.rs`, `src/automaton/nfa.rs`, `src/automaton/dfa.rs`)
and proves or refutes the frozen specification claims about them.

Modelling conventions:
* `NfaState`/`DfaState` surrogate ids are `Nat`.
* Rust `HashMap`s are modelled as association lists; a `HashSet` handed out by
  the code (e.g. `Nfa::next_states`) is modelled as a `List` whose order stands
  for the (unspecified) hash-iteration order.  Universally quantified theorems
  therefore hold for every iteration order, and order-dependence bugs are
  exhibited by two lists that are set-equal but ordered differently.
* Rust `Vec` stacks (`pop` from the back, `extend` at the back) are modelled as
  lists whose *head* is the top of the stack, so `pop` is head-matching and
  `extend [a, b]` is `[b, a] ++ ·`.
* The `while` worklist loops of `Dfa::from_nfa` are written with an explicit
  fuel parameter so that every definition is executable; the fuel passed at the
  call sites is proved sufficient (the loops reach their fixed points), which
  is exactly the termination claim of the specification.
-/

namespace RegexDfa

/-- Generic association-list lookup, the model of `HashMap::get`. -/
def assocFind {α β : Type} [DecidableEq α] : List (α × β) → α → Option β
  | [], _ => none
  | (k, v) :: t, x => if x = k then some v else assocFind t x

/-- Ascending sort of a list of state ids, the model of `Vec::sort`. -/
def sortList (l : List Nat) : List Nat := List.insertionSort (· ≤ ·) l

/-- `extendDedup e l` models `HashSet::extend`: elements of `l` are added to
`e` in order, skipping the ones already present. -/
def extendDedup (e l : List Nat) : List Nat :=
  l.foldl (fun acc x => if x ∈ acc then acc else acc ++ [x]) e

/-! ## `src/automaton/nfa.rs` : the NFA data model -/

/-- The `Nfa` struct of `nfa.rs`: a start state, a set of accept states and a
transition table `HashMap<NfaState, HashMap<Option<char>, HashSet<NfaState>>>`.
Inner sets are lists whose order models hash-iteration order. -/
structure Nfa where
  start : Nat
  accepts : List Nat
  transitions : List (Nat × List (Option Char × List Nat))

/-- `Nfa::next_chars`: the key set of the row of `state` (empty if absent). -/
def Nfa.next_chars (nfa : Nfa) (state : Nat) : List (Option Char) :=
  match assocFind nfa.transitions state with
  | some table => table.map Prod.fst
  | none => []

/-- `Nfa::next_states`: the destination set for `(state, char)`
(empty if absent). -/
def Nfa.next_states (nfa : Nfa) (state : Nat) (char : Option Char) : List Nat :=
  match assocFind nfa.transitions state with
  | some table =>
    match assocFind table char with
    | some dsts => dsts
    | none => []
  | none => []

/-- The destination states of one transition-table row, concatenated. -/
def rowStates (row : List (Option Char × List Nat)) : List Nat :=
  row.foldr (fun p acc => p.2 ++ acc) []

/-- Every state id mentioned by the NFA (start, sources, destinations):
a finite universe for the closure computations. -/
def Nfa.statesList (nfa : Nfa) : List Nat :=
  nfa.start ::
    nfa.transitions.foldr (fun e acc => (e.1 :: rowStates e.2) ++ acc) []

/-- The finite state universe of the NFA, as a `Finset`. -/
def Nfa.statesFinset (nfa : Nfa) : Finset Nat := nfa.statesList.toFinset

/-- A bound on the length of any destination list of the NFA. -/
def Nfa.destBound (nfa : Nfa) : Nat := nfa.statesList.length

/-- Every concrete character mentioned by the NFA's transition table. -/
def Nfa.charsList (nfa : Nfa) : List Char :=
  nfa.transitions.foldr
    (fun e acc => e.2.foldr (fun p a2 => p.1.toList ++ a2) acc) []

/-- A bound on the number of distinct labelled symbols of the NFA. -/
def Nfa.charBound (nfa : Nfa) : Nat := nfa.charsList.length

/-- The `NfaContext` state allocator of `nfa.rs`. -/
structure NfaContext where
  state_count : Nat

/-- `NfaContext::new_state`: return a fresh id and bump the counter. -/
def NfaContext.new_state (ctx : NfaContext) : Nat × NfaContext :=
  (ctx.state_count, ⟨ctx.state_count + 1⟩)

/-- `Nfa::new`. -/
def Nfa.new (start : Nat) (accepts : List Nat) : Nfa := ⟨start, accepts, []⟩

/-- Update one row: `entry(char).or_insert(HashSet::new()).insert(to)`. -/
def insertRow (row : List (Option Char × List Nat)) (c : Option Char)
    (dst : Nat) : List (Option Char × List Nat) :=
  match row with
  | [] => [(c, [dst])]
  | (k, v) :: t =>
    if c = k then (k, if dst ∈ v then v else v ++ [dst]) :: t
    else (k, v) :: insertRow t c dst

/-- Update the outer table: `entry(from)` then the row update. -/
def insertTable (trs : List (Nat × List (Option Char × List Nat)))
    (f : Nat) (c : Option Char) (dst : Nat) :
    List (Nat × List (Option Char × List Nat)) :=
  match trs with
  | [] => [(f, [(c, [dst])])]
  | (k, row) :: t =>
    if f = k then (k, insertRow row c dst) :: t
    else (k, row) :: insertTable t f c dst

/-- `Nfa::_insert_transition`. -/
def Nfa.insert_transition (nfa : Nfa) (f : Nat) (dst : Nat)
    (c : Option Char) : Nfa :=
  { nfa with transitions := insertTable nfa.transitions f c dst }

/-- `Nfa::add_transition`. -/
def Nfa.add_transition (nfa : Nfa) (f : Nat) (c : Char) (dst : Nat) : Nfa :=
  nfa.insert_transition f dst (some c)

/-- `Nfa::add_empty_transition`. -/
def Nfa.add_empty_transition (nfa : Nfa) (f dst : Nat) : Nfa :=
  nfa.insert_transition f dst none

/-- `Nfa::merge_transition`: fold every `(from, char, to)` triple of `other`
into `self`. -/
def Nfa.merge_transition (nfa other : Nfa) : Nfa :=
  let merged := other.transitions.foldl
    (fun acc e => e.2.foldl
      (fun acc2 p => p.2.foldl
        (fun acc3 t => insertTable acc3 e.1 p.1 t) acc2) acc)
    nfa.transitions
  { nfa with transitions := merged }

/-- The transition relation of a raw table, as a predicate on triples (used
to state what `merge_transition` folds in). -/
def MemRel (l : List (Nat × List (Option Char × List Nat)))
    (s : Nat) (c : Option Char) (t : Nat) : Prop :=
  ∃ e ∈ l, e.1 = s ∧ ∃ p ∈ e.2, p.1 = c ∧ t ∈ p.2

/-- Well-formedness every `Nfa` built through the `nfa.rs` API satisfies
(HashMap keys are unique): outer keys and the keys of every row are
duplicate free. -/
def NfaWF (nfa : Nfa) : Prop :=
  (nfa.transitions.map Prod.fst).Nodup ∧
    ∀ e ∈ nfa.transitions, (e.2.map Prod.fst).Nodup

/-- Modelled from the spec: the `Node` AST consumed by `Nfa::from_node` is
not under src/ (`nfa.rs` only imports `crate::parser::Node` and calls
`node.assemble`); its five variants are the ones of spec section 4.2. -/
inductive Node where
  | Character (c : Char)
  | Empty
  | Star (inner : Node)
  | Union (a b : Node)
  | Concat (a b : Node)

/-- Modelled from the spec: fragment assembly (`Node::assemble`) is not
under src/; this follows the construction table of spec section 4.2
verbatim, threading the real `NfaContext` allocator and using the real
`Nfa` transition helpers of `nfa.rs`. -/
def Node.assemble : Node → NfaContext → Nfa × NfaContext
  | .Character c, ctx =>
    let p0 := ctx.new_state
    let p1 := p0.2.new_state
    ((Nfa.new p0.1 [p1.1]).add_transition p0.1 c p1.1, p1.2)
  | .Empty, ctx =>
    let p0 := ctx.new_state
    let p1 := p0.2.new_state
    ((Nfa.new p0.1 [p1.1]).add_empty_transition p0.1 p1.1, p1.2)
  | .Star inner, ctx =>
    let pi := inner.assemble ctx
    let p0 := pi.2.new_state
    let base := ((Nfa.new p0.1 (p0.1 :: pi.1.accepts)).merge_transition
      pi.1).add_empty_transition p0.1 pi.1.start
    (pi.1.accepts.foldl
      (fun acc a => acc.add_empty_transition a pi.1.start) base, p0.2)
  | .Union a b, ctx =>
    let pa := a.assemble ctx
    let pb := b.assemble pa.2
    let p0 := pb.2.new_state
    (((((Nfa.new p0.1 (pa.1.accepts ++ pb.1.accepts)).merge_transition
        pa.1).merge_transition pb.1).add_empty_transition p0.1
          pa.1.start).add_empty_transition p0.1 pb.1.start, p0.2)
  | .Concat a b, ctx =>
    let pa := a.assemble ctx
    let pb := b.assemble pa.2
    let base := ((Nfa.new pa.1.start pb.1.accepts).merge_transition
      pa.1).merge_transition pb.1
    (pa.1.accepts.foldl
      (fun acc x => acc.add_empty_transition x pb.1.start) base, pb.2)

/-- `Nfa::from_node` (nfa.rs): assemble with a fresh allocator. -/
def Nfa.from_node (node : Node) : Nfa := (node.assemble ⟨0⟩).1

/-! ## `src/automaton/dfa.rs` : subset-identity registrar -/

/-- The `DfaContext` struct: a counter and the canonical-key map
`HashMap<Vec<NfaState>, DfaState>` (an association list in allocation order). -/
structure DfaContext where
  state_count : Nat
  state_map : List (List Nat × Nat)

/-- `DfaContext::new()`. -/
def DfaContext.empty : DfaContext := ⟨0, []⟩

/-- `DfaContext::get_state`: sort the input (the code does **not**
deduplicate), look the sorted key up, and allocate the next sequential id on a
miss.  Returns the id together with the updated registrar. -/
def DfaContext.get_state (ctx : DfaContext) (states : List Nat) :
    Nat × DfaContext :=
  let sorted_states := sortList states
  match assocFind ctx.state_map sorted_states with
  | some id => (id, ctx)
  | none =>
    (ctx.state_count,
      ⟨ctx.state_count + 1, ctx.state_map ++ [(sorted_states, ctx.state_count)]⟩)

/-! ## `Dfa::from_nfa`, first stage: the start-state epsilon traversal

Rust (dfa.rs, lines 53-66): `ret` starts as `vec![nfa.start]`, the stack
starts as the epsilon successors of the start state, and each popped state is
pushed into `ret` unconditionally, its epsilon successors entering the stack
when not already in `ret`. -/

/-- Termination measure for `epsLoop1` (strictly decreases at every
iteration, for arbitrary stack/ret contents). -/
def measEps1 (nfa : Nfa) (stack ret : List Nat) : Nat :=
  (2 * nfa.destBound + 3) *
      ((nfa.statesFinset ∪ stack.toFinset ∪ ret.toFinset) \ ret.toFinset).card +
    stack.length +
    (nfa.destBound + 1) *
      (match stack with
       | [] => 0
       | s :: _ => if s ∈ ret then 1 else 0)

/-- The `while let Some(state) = stack.pop()` loop computing the start
closure (fuelled; `startList` passes sufficient fuel). -/
def epsLoop1 (nfa : Nfa) : Nat → List Nat → List Nat → List Nat
  | 0, _, ret => ret
  | _ + 1, [], ret => ret
  | fuel + 1, s :: rest, ret =>
    let ret2 := ret ++ [s]
    let next := nfa.next_states s none
    epsLoop1 nfa fuel
      ((next.filter (fun x => !ret2.contains x)).reverse ++ rest) ret2

/-- The `start_states` list (`ret`) computed by `Dfa::from_nfa` before the
worklist loop. -/
def startList (nfa : Nfa) : List Nat :=
  let stack0 := (nfa.next_states nfa.start none).reverse
  epsLoop1 nfa (measEps1 nfa stack0 [nfa.start] + 1) stack0 [nfa.start]

/-! ## `Dfa::from_nfa`, second stage: the per-symbol closure traversal

Rust (dfa.rs, lines 85-99): `next_states` starts as the concatenation of the
`char` destinations and the epsilon destinations of the source state; the
stack starts with those of its elements that have epsilon successors; each
popped state appends all its epsilon successors to `next_states` and pushes
the fresh ones. -/

/-- Termination measure for `epsLoop2`. -/
def measEps2 (nfa : Nfa) (stack ns : List Nat) : Nat :=
  (2 * nfa.destBound + 3) *
      ((nfa.statesFinset ∪ stack.toFinset ∪ ns.toFinset) \ ns.toFinset).card +
    stack.length

/-- The inner `while let Some(state) = stack.pop()` closure loop of the
transition computation (fuelled; `closureList` passes sufficient fuel). -/
def epsLoop2 (nfa : Nfa) : Nat → List Nat → List Nat → List Nat
  | 0, _, ns => ns
  | _ + 1, [], ns => ns
  | fuel + 1, u :: rest, ns =>
    let next := nfa.next_states u none
    epsLoop2 nfa fuel
      ((next.filter (fun x => !ns.contains x)).reverse ++ rest) (ns ++ next)

/-- The full `next_states` list computed for one `(look_state, char)` pair:
seed the list, seed the stack with the seeds that have epsilon successors,
and run the closure loop. -/
def closureList (nfa : Nfa) (init : List Nat) : List Nat :=
  let stack0 :=
    (init.filter (fun x => !(nfa.next_states x none).isEmpty)).reverse
  epsLoop2 nfa (measEps2 nfa stack0 init + 1) stack0 init

/-! ## `Dfa::from_nfa`, third stage: the worklist loop -/

/-- `transition_map.entry(char).or_insert(HashSet::new()).extend(ns)`:
update the association list at `c`, deduplicating the added elements. -/
def tmapExtend (tm : List (Char × List Nat)) (c : Char) (ns : List Nat) :
    List (Char × List Nat) :=
  match tm with
  | [] => [(c, extendDedup [] ns)]
  | (k, v) :: t =>
    if c = k then (k, extendDedup v ns) :: t else (k, v) :: tmapExtend t c ns

/-- The `transition_map` computed for one popped subset `look`: for every
state of `look` in order and every concrete symbol of that state, fold the
per-pair closure into the map. -/
def buildTmap (nfa : Nfa) (look : List Nat) : List (Char × List Nat) :=
  look.foldl
    (fun tm s =>
      ((nfa.next_chars s).filterMap id).foldl
        (fun tm2 c =>
          tmapExtend tm2 c
            (closureList nfa
              (nfa.next_states s (some c) ++ nfa.next_states s none)))
        tm)
    []

/-- `HashMap::insert` on the transition table (replace or append). -/
def mapInsert (l : List ((Nat × Char) × Nat)) (k : Nat × Char) (v : Nat) :
    List ((Nat × Char) × Nat) :=
  match l with
  | [] => [(k, v)]
  | (k2, v2) :: t =>
    if k = k2 then (k2, v) :: t else (k2, v2) :: mapInsert t k v

/-- The mutable locals of the worklist loop of `Dfa::from_nfa`: the registrar,
the `waiting` stack of pending subsets (head-topped), the `visited` id set and
the transition table `ret`. -/
structure DState where
  ctx : DfaContext
  waiting : List (List Nat)
  visited : Finset Nat
  trans : List ((Nat × Char) × Nat)

/-- The `for (char, next_states) in transition_map` loop body: register the
target subset, enqueue it when its id is unvisited, record the transition.
`pushed` accumulates pushes most-recent-first (the stack-top order). -/
def stepEntries (v2 : Finset Nat) (form : Nat) :
    List (Char × List Nat) → DfaContext → List (List Nat) →
      List ((Nat × Char) × Nat) →
      DfaContext × List (List Nat) × List ((Nat × Char) × Nat)
  | [], ctx, pushed, tr => (ctx, pushed, tr)
  | (c, ns) :: t, ctx, pushed, tr =>
    let g := ctx.get_state ns
    let pushed2 := if g.1 ∈ v2 then pushed else ns :: pushed
    stepEntries v2 form t g.2 pushed2 (mapInsert tr (form, c) g.1)

/-- One iteration of `while let Some(look_states) = waiting.pop()`: mark the
popped subset's id visited (there is **no** already-visited guard in the
code), build its `transition_map`, then process every entry. -/
def step (nfa : Nfa) (st : DState) : DState :=
  match st.waiting with
  | [] => st
  | look :: rest =>
    let p1 := st.ctx.get_state look
    let v2 := insert p1.1 st.visited
    let tmap := buildTmap nfa look
    let p2 := p1.2.get_state look
    let res := stepEntries v2 p2.1 tmap p2.2 [] st.trans
    { ctx := res.1, waiting := res.2.1 ++ rest, visited := v2,
      trans := res.2.2 }

/-- The worklist loop, fuelled with early exit on an empty worklist. -/
def stepN (nfa : Nfa) : Nat → DState → DState
  | 0, st => st
  | fuel + 1, st =>
    match st.waiting with
    | [] => st
    | _ :: _ => stepN nfa fuel (step nfa st)

/-- The state of the worklist loop on entry: the registrar already holds the
start subset, which is also the single pending item. -/
def initState (nfa : Nfa) : DState :=
  let sl := startList nfa
  ⟨(DfaContext.empty.get_state sl).2, [sl], ∅, []⟩

/-- Fuel sufficient for the worklist loop to reach its fixed point (proved
below; the loop's measure starts under this bound and strictly decreases). -/
def mainFuel (nfa : Nfa) : Nat :=
  (2 * nfa.charBound + 3) * (2 + 2 ^ nfa.statesFinset.card) +
    nfa.charBound + 2

/-- The final state of the worklist loop of `Dfa::from_nfa`. -/
def determinize (nfa : Nfa) : DState :=
  stepN nfa (mainFuel nfa) (initState nfa)

/-- `CtxOK ctx`: the registrar ids are exactly `0, 1, …, state_count - 1`,
in allocation order. -/
def CtxOK (ctx : DfaContext) : Prop :=
  ctx.state_map.map Prod.snd = List.range ctx.state_count

/-- The finite universe of registrar keys that can occur in one run of
`Dfa::from_nfa`: the (possibly duplicate-carrying) start key plus every
sorted duplicate-free list over the NFA's state universe. -/
def keyUniverse (nfa : Nfa) : Finset (List Nat) :=
  insert (sortList (startList nfa))
    ((nfa.statesFinset.powerset).image (fun A => A.sort (· ≤ ·)))

/-- The invariant of the worklist loop used in the termination proof. -/
def DInv (nfa : Nfa) (st : DState) : Prop :=
  CtxOK st.ctx ∧
  (st.ctx.state_map.map Prod.fst).Nodup ∧
  (∀ e ∈ st.ctx.state_map, e.1 ∈ keyUniverse nfa) ∧
  (∀ w ∈ st.waiting, ∃ i, (sortList w, i) ∈ st.ctx.state_map) ∧
  (∀ d ∈ st.visited, d < st.ctx.state_count)

/-- The number of registrar entries whose id is already visited. -/
def visitedCount (st : DState) : Nat :=
  (st.ctx.state_map.filter (fun e => e.2 ∈ st.visited)).length

/-- Termination measure of the worklist loop: it strictly decreases at every
iteration from a state satisfying `DInv`. -/
def measMain (nfa : Nfa) (st : DState) : Nat :=
  (2 * nfa.charBound + 3) *
      ((2 + 2 ^ nfa.statesFinset.card) - visitedCount st) +
    st.waiting.length +
    (nfa.charBound + 1) *
      (match st.waiting with
       | [] => 0
       | look :: _ => if (st.ctx.get_state look).1 ∈ st.visited then 1 else 0)

/-- The sequence of subsets popped (and therefore expanded) by the worklist
loop, in order. -/
def popTrace (nfa : Nfa) : Nat → DState → List (List Nat)
  | 0, _ => []
  | fuel + 1, st =>
    match st.waiting with
    | [] => []
    | look :: _ => look :: popTrace nfa fuel (step nfa st)

/-- The `Dfa` struct of `dfa.rs`. -/
structure Dfa where
  start : Nat
  accepts : Finset Nat
  transitions : List ((Nat × Char) × Nat)

/-- `Dfa::next_state`. -/
def Dfa.next_state (dfa : Dfa) (state : Nat) (char : Char) : Option Nat :=
  assocFind dfa.transitions (state, char)

/-- `Dfa::from_nfa`: start id from the start closure, the worklist loop,
then the accept set derived by scanning every registrar entry. -/
def Dfa.from_nfa (nfa : Nfa) : Dfa :=
  let fin := determinize nfa
  { start := (DfaContext.empty.get_state (startList nfa)).1,
    accepts :=
      ((fin.ctx.state_map.filter
          (fun e => e.1.any (fun s => nfa.accepts.contains s))).map
        Prod.snd).toFinset,
    transitions := fin.trans }

/-! ## `src/error.rs` and `src/parser.rs` : the regex parser -/

/-- The `ParseError` enum of `error.rs`. -/
inductive ParseError where
  | InvalidEscape (pos : Nat) (c : Char)
  | InvalidRightParen (pos : Nat)
  | NoPrev (pos : Nat)
  | NoRightParen
  | Empty
  deriving DecidableEq

/-- The `Ast` enum of `parser.rs`. -/
inductive Ast where
  | Char (c : Char)
  | Star (a : Ast)
  | Or (a b : Ast)
  | Seq (l : List Ast)

/-- `ESCAPE_CHARS` of `parser.rs`. -/
def ESCAPE_CHARS : List Char := ['\\', '(', ')', '|', '*']

/-- `parse_escape` of `parser.rs`. -/
def parse_escape (pos : Nat) (c : Char) : Except ParseError Ast :=
  if c ∈ ESCAPE_CHARS then
    Except.ok (Ast.Char c)
  else
    Except.error (ParseError.InvalidEscape pos c)

/-- `fold_or` of `parser.rs` (`pop` the last alternative, reverse the rest,
then fold `Or` from the right). -/
def fold_or (seq_or : List Ast) : Option Ast :=
  if seq_or.length > 1 then
    match seq_or.getLast? with
    | some last =>
      some ((seq_or.dropLast.reverse).foldl (fun ast s => Ast.Or s ast) last)
    | none => none
  else
    seq_or.getLast?

/-- The mutable locals of `parse` (`seq`, `seq_or`, `stack`, `is_escape`);
the `stack` is head-topped. -/
structure ParseState where
  seq : List Ast
  seq_or : List Ast
  stack : List (List Ast × List Ast)
  is_escape : Bool

/-- One iteration of the `for (pos, c)` loop of `parse`. -/
def parseStep (pos : Nat) (c : Char) (st : ParseState) :
    Except ParseError ParseState :=
  if st.is_escape then
    match parse_escape pos c with
    | .error e => .error e
    | .ok ast => .ok { st with is_escape := false, seq := st.seq ++ [ast] }
  else
    match c with
    | '*' =>
      match st.seq.getLast? with
      | none => .error (.NoPrev pos)
      | some prev_ast =>
        .ok { st with seq := st.seq.dropLast ++ [Ast.Star prev_ast] }
    | '(' =>
      .ok { seq := [], seq_or := [],
            stack := (st.seq, st.seq_or) :: st.stack, is_escape := st.is_escape }
    | ')' =>
      match st.stack with
      | [] => .error (.InvalidRightParen pos)
      | (prev, prev_or) :: rest =>
        let seq_or :=
          if !st.seq.isEmpty then st.seq_or ++ [Ast.Seq st.seq] else st.seq_or
        let prev :=
          match fold_or seq_or with
          | some ast => prev ++ [ast]
          | none => prev
        .ok { seq := prev, seq_or := prev_or, stack := rest,
              is_escape := st.is_escape }
    | '|' => .ok { st with seq := [], seq_or := st.seq_or ++ [Ast.Seq st.seq] }
    | '\\' => .ok { st with is_escape := true }
    | _ => .ok { st with seq := st.seq ++ [Ast.Char c] }

/-- The whole character loop of `parse`, with `pos` threading the
`enumerate` index. -/
def parseLoop : Nat → List Char → ParseState → Except ParseError ParseState
  | _, [], st => .ok st
  | pos, c :: rest, st =>
    match parseStep pos c st with
    | .error e => .error e
    | .ok st2 => parseLoop (pos + 1) rest st2

/-- The code after the character loop of `parse` (unbalanced-paren check, the
final `seq` flush, and the final `fold_or`). -/
def finishParse (st : ParseState) : Except ParseError Ast :=
  if !st.stack.isEmpty then .error .NoRightParen
  else
    let seq_or :=
      if !st.seq.isEmpty then st.seq_or ++ [Ast.Seq st.seq] else st.seq_or
    match fold_or seq_or with
    | some ast => .ok ast
    | none => .error .Empty

/-- The initial parser state. -/
def parseInit : ParseState := ⟨[], [], [], false⟩

/-- `parse` of `parser.rs` (the pattern given as its character list). -/
def parse (pattern : List Char) : Except ParseError Ast :=
  match parseLoop 0 pattern parseInit with
  | .error e => .error e
  | .ok st => finishParse st

/-! ## Specification-side notions (epsilon reachability, closure, DFA
isomorphism) used to state the claims -/

/-- `EpsReach nfa x y`: `y` is reachable from `x` via zero or more epsilon
transitions. -/
inductive EpsReach (nfa : Nfa) : Nat → Nat → Prop
  | refl (x : Nat) : EpsReach nfa x x
  | tail {x y z : Nat} :
      EpsReach nfa x y → z ∈ nfa.next_states y none → EpsReach nfa x z

/-- The epsilon reach of a set of states. -/
def epsReachSet (nfa : Nfa) (A : Set Nat) : Set Nat :=
  {y | ∃ x ∈ A, EpsReach nfa x y}

/-- A set closed under epsilon transitions. -/
def EpsClosed (nfa : Nfa) (C : Set Nat) : Prop :=
  ∀ x ∈ C, ∀ y ∈ nfa.next_states x none, y ∈ C

/-- The specification's definition of epsilon-closure: the smallest superset
of `A` that is closed under epsilon transitions. -/
def IsEpsClosure (nfa : Nfa) (A C : Set Nat) : Prop :=
  A ⊆ C ∧ EpsClosed nfa C ∧ ∀ D, A ⊆ D → EpsClosed nfa D → C ⊆ D

/-- The set of NFA states the determinizer code actually collects as the
`(look, c)` transition target: for every source state `s` of the popped
subset that has a `c`-labelled transition, the epsilon closure of the
`c`-destinations of `s` *together with the epsilon destinations of `s`
itself* (the code chains `next_states(s, Some(c))` with
`next_states(s, None)`). -/
def codeTarget (nfa : Nfa) (look : List Nat) (c : Char) : Set Nat :=
  {y | ∃ s ∈ look, (some c) ∈ nfa.next_chars s ∧
    y ∈ epsReachSet nfa
      {x | x ∈ nfa.next_states s (some c) ++ nfa.next_states s none}}

/-- The transition target demanded by the specification: the epsilon closure
of the union of the `c`-destinations alone. -/
def specTarget (nfa : Nfa) (look : List Nat) (c : Char) : Set Nat :=
  epsReachSet nfa {x | ∃ s ∈ look, x ∈ nfa.next_states s (some c)}

/-- Reachability in a constructed DFA, from its start state. -/
inductive DfaReach (d : Dfa) : Nat → Prop
  | start : DfaReach d d.start
  | step {s : Nat} {c : Char} {t : Nat} :
      DfaReach d s → d.next_state s c = some t → DfaReach d t

/-- Isomorphism of two DFAs under relabelling from their start states: a
relabelling of the reachable part that preserves the start state, accept
membership and the transition function, is injective on the reachable part
and covers the reachable part of the target. -/
def DfaIso (d1 d2 : Dfa) : Prop :=
  ∃ f : Nat → Nat,
    f d1.start = d2.start ∧
    (∀ s, DfaReach d1 s → (s ∈ d1.accepts ↔ f s ∈ d2.accepts)) ∧
    (∀ s c, DfaReach d1 s → d2.next_state (f s) c = (d1.next_state s c).map f) ∧
    (∀ s t, DfaReach d1 s → DfaReach d1 t → f s = f t → s = t) ∧
    (∀ t, DfaReach d2 t → ∃ s, DfaReach d1 s ∧ f s = t)

/-- Equality of two `Nfa` values as abstract NFAs: same start state, same
accept set and the same transition relation (all compared as sets; the list
orders — the modelled hash-iteration orders — may differ). -/
def NfaSetEquiv (n1 n2 : Nfa) : Prop :=
  n1.start = n2.start ∧
  n1.accepts.toFinset = n2.accepts.toFinset ∧
  (∀ s c, (n1.next_states s c).toFinset = (n2.next_states s c).toFinset) ∧
  (∀ s, (n1.next_chars s).toFinset = (n2.next_chars s).toFinset)

/-! ## Concrete automata used by the counterexamples -/

/-- Counterexample NFA for C3, first hash-iteration order: epsilon edges
`0→{1,2}`, `2→{3,4}`, `4→{3}`, labelled edge `1 → 0` on `x`; start `0`,
accepts `{0}`. -/
def nfaDupA : Nfa :=
  ⟨0, [0], [(0, [(none, [1, 2])]), (1, [(some 'x', [0])]),
    (2, [(none, [3, 4])]), (4, [(none, [3])])]⟩

/-- The same abstract NFA as `nfaDupA` with the epsilon-successor set of
state `2` iterated in the other order. -/
def nfaDupB : Nfa :=
  ⟨0, [0], [(0, [(none, [1, 2])]), (1, [(some 'x', [0])]),
    (2, [(none, [4, 3])]), (4, [(none, [3])])]⟩

/-- Counterexample NFA for C4: two labelled edges `0 → 1` on `a` and on `b`,
so the subset `{1}` is enqueued twice before it is first popped. -/
def nfaDouble : Nfa := ⟨0, [], [(0, [(some 'a', [1]), (some 'b', [1])])]⟩

/-- Counterexample NFA for C2: a state with both a labelled transition
(`0 → 1` on `a`) and an epsilon transition (`0 → 2`). -/
def nfaMix : Nfa := ⟨0, [], [(0, [(some 'a', [1]), (none, [2])])]⟩

/-- An NFA whose epsilon graph is a cycle (`0 → 1 → 0`), exercising the
termination of the closure traversals on cyclic inputs. -/
def nfaCycle : Nfa := ⟨0, [], [(0, [(none, [1])]), (1, [(none, [0])])]⟩

end RegexDfa

namespace RegexDfa

/-! # Theorems -/

/-! ### Association lists and the finite state universe -/

theorem assocFind_mem {α β : Type} [DecidableEq α] :
    ∀ {l : List (α × β)} {k : α} {v : β},
      assocFind l k = some v → (k, v) ∈ l := by
  intro l
  induction l with
  | nil => intro k v h; simp [assocFind] at h
  | cons e t ih =>
    intro k v h
    obtain ⟨k0, v0⟩ := e
    by_cases hk : k = k0
    · simp only [assocFind, if_pos hk] at h
      injection h with h2
      subst hk h2
      exact List.mem_cons_self _ _
    · simp only [assocFind, if_neg hk] at h
      exact List.mem_cons_of_mem _ (ih h)

theorem mem_rowStates {row : List (Option Char × List Nat)}
    {p : Option Char × List Nat} (hp : p ∈ row) :
    ∀ x ∈ p.2, x ∈ rowStates row := by
  induction row with
  | nil => cases hp
  | cons hd t ih =>
    intro x hx
    rcases List.mem_cons.1 hp with h | h
    · subst h
      exact List.mem_append_left _ hx
    · exact List.mem_append_right _ (ih h x hx)

theorem length_le_rowStates {row : List (Option Char × List Nat)}
    {p : Option Char × List Nat} (hp : p ∈ row) :
    p.2.length ≤ (rowStates row).length := by
  induction row with
  | nil => cases hp
  | cons hd t ih =>
    rcases List.mem_cons.1 hp with h | h
    · subst h
      simp [rowStates]
    · calc p.2.length ≤ (rowStates t).length := ih h
        _ ≤ (rowStates (hd :: t)).length := by simp [rowStates]

theorem mem_transFold
    {l : List (Nat × List (Option Char × List Nat))}
    {e : Nat × List (Option Char × List Nat)} (he : e ∈ l) :
    (∀ x ∈ rowStates e.2,
        x ∈ l.foldr (fun e2 acc => (e2.1 :: rowStates e2.2) ++ acc) []) ∧
      (rowStates e.2).length ≤
        (l.foldr (fun e2 acc => (e2.1 :: rowStates e2.2) ++ acc) []).length := by
  induction l with
  | nil => cases he
  | cons hd t ih =>
    rcases List.mem_cons.1 he with h | h
    · subst h
      constructor
      · intro x hx
        simp only [List.foldr_cons]
        exact List.mem_append_left _ (List.mem_cons_of_mem _ hx)
      · simp only [List.foldr_cons, List.length_append, List.length_cons]
        omega
    · obtain ⟨ih1, ih2⟩ := ih h
      constructor
      · intro x hx
        simp only [List.foldr_cons]
        exact List.mem_append_right _ (ih1 x hx)
      · simp only [List.foldr_cons, List.length_append, List.length_cons]
        omega

theorem mem_statesList_of_next {nfa : Nfa} {s : Nat} {c : Option Char} :
    ∀ x ∈ nfa.next_states s c, x ∈ nfa.statesList := by
  intro x hx
  rcases h1 : assocFind nfa.transitions s with _ | table
  · simp [Nfa.next_states, h1] at hx
  · rcases h2 : assocFind table c with _ | dsts
    · simp [Nfa.next_states, h1, h2] at hx
    · simp only [Nfa.next_states, h1, h2] at hx
      have hmem := assocFind_mem h1
      have hmem2 := assocFind_mem h2
      have hrow : x ∈ rowStates table :=
        mem_rowStates hmem2 x hx
      have hfold := (mem_transFold hmem).1
      simp only at hfold
      unfold Nfa.statesList
      exact List.mem_cons_of_mem _ (hfold x hrow)

theorem next_states_length_le (nfa : Nfa) (s : Nat) (c : Option Char) :
    (nfa.next_states s c).length ≤ nfa.destBound := by
  unfold Nfa.destBound
  rcases h1 : assocFind nfa.transitions s with _ | table
  · simp [Nfa.next_states, h1]
  · rcases h2 : assocFind table c with _ | dsts
    · simp [Nfa.next_states, h1, h2]
    · simp only [Nfa.next_states, h1, h2]
      have hmem := assocFind_mem h1
      have hmem2 := assocFind_mem h2
      have hlen : dsts.length ≤ (rowStates table).length :=
        length_le_rowStates (p := (c, dsts)) hmem2
      have hlen2 := (mem_transFold hmem).2
      simp only at hlen2
      unfold Nfa.statesList
      simp only [List.length_cons]
      omega

theorem mem_statesFinset_of_next {nfa : Nfa} {s : Nat} {c : Option Char}
    {x : Nat} (hx : x ∈ nfa.next_states s c) : x ∈ nfa.statesFinset :=
  List.mem_toFinset.2 (mem_statesList_of_next x hx)

/-! ### The epsilon-closure specification -/

theorem epsReachSet_isClosure (nfa : Nfa) (A : Set Nat) :
    IsEpsClosure nfa A (epsReachSet nfa A) := by
  refine ⟨fun x hx => ⟨x, hx, EpsReach.refl x⟩, ?_, ?_⟩
  · rintro x ⟨x0, hx0, hr⟩ y hy
    exact ⟨x0, hx0, EpsReach.tail hr hy⟩
  · rintro D hAD hD y ⟨x0, hx0, hr⟩
    induction hr with
    | refl => exact hAD hx0
    | tail _ hz ih => exact hD _ ih _ hz

theorem epsClosed_contains_reach {nfa : Nfa} {A D : Set Nat}
    (hAD : A ⊆ D) (hD : EpsClosed nfa D) :
    epsReachSet nfa A ⊆ D :=
  (epsReachSet_isClosure nfa A).2.2 D hAD hD

theorem isEpsClosure_eq {nfa : Nfa} {A C : Set Nat}
    (h : IsEpsClosure nfa A C) : C = epsReachSet nfa A := by
  obtain ⟨hAC, hC, hmin⟩ := h
  apply Set.Subset.antisymm
  · exact hmin _ (epsReachSet_isClosure nfa A).1 (epsReachSet_isClosure nfa A).2.1
  · exact epsClosed_contains_reach hAC hC

theorem epsReachSet_union (nfa : Nfa) (A B : Set Nat) :
    epsReachSet nfa (A ∪ B) = epsReachSet nfa A ∪ epsReachSet nfa B := by
  ext y
  simp only [epsReachSet, Set.mem_union, Set.mem_setOf_eq, Set.mem_union]
  constructor
  · rintro ⟨x, hx | hx, hr⟩
    · exact Or.inl ⟨x, hx, hr⟩
    · exact Or.inr ⟨x, hx, hr⟩
  · rintro (⟨x, hx, hr⟩ | ⟨x, hx, hr⟩)
    · exact ⟨x, Or.inl hx, hr⟩
    · exact ⟨x, Or.inr hx, hr⟩

/-! ### Termination of the epsilon traversals -/

theorem bool_filter_not_contains {l : List Nat} {x : Nat}
    (h : (!l.contains x) = true) : x ∉ l := by
  simp only [Bool.not_eq_true'] at h
  intro hmem
  rw [← List.elem_iff (a := x)] at hmem
  rw [List.contains] at h
  rw [h] at hmem
  cases hmem

theorem bMatch_le (ret stack : List Nat) (k : Nat) :
    k * (match stack with
         | [] => 0
         | s2 :: _ => if s2 ∈ ret then 1 else 0) ≤ k := by
  cases stack with
  | nil => simp
  | cons a t =>
    dsimp only
    split <;> simp

/-- The measure of the start-closure loop strictly decreases at every
iteration, for arbitrary stack and `ret` contents. -/
theorem measEps1_decrease (nfa : Nfa) (s : Nat) (rest ret : List Nat) :
    measEps1 nfa
      (((nfa.next_states s none).filter
          (fun x => !(ret ++ [s]).contains x)).reverse ++ rest)
      (ret ++ [s]) <
    measEps1 nfa (s :: rest) ret := by
  classical
  set P := ((nfa.next_states s none).filter
      (fun x => !(ret ++ [s]).contains x)).reverse with hP
  have hpn : ∀ x ∈ P, x ∈ nfa.statesFinset := by
    intro x hx
    rw [hP, List.mem_reverse, List.mem_filter] at hx
    exact mem_statesFinset_of_next hx.1
  have hpnot : ∀ x ∈ P, x ∉ ret ++ [s] := by
    intro x hx
    rw [hP, List.mem_reverse, List.mem_filter] at hx
    exact bool_filter_not_contains hx.2
  have hplen : P.length ≤ nfa.destBound := by
    rw [hP, List.length_reverse]
    calc ((nfa.next_states s none).filter
            (fun x => !(ret ++ [s]).contains x)).length
        ≤ (nfa.next_states s none).length := List.length_filter_le _ _
      _ ≤ nfa.destBound := next_states_length_le nfa s none
  -- the new universe is contained in the old one
  have hU : (nfa.statesFinset ∪ (P ++ rest).toFinset ∪
        (ret ++ [s]).toFinset) ⊆
      (nfa.statesFinset ∪ (s :: rest).toFinset ∪ ret.toFinset) := by
    intro x hx
    simp only [Finset.mem_union, List.toFinset_append, List.toFinset_cons,
      Finset.mem_insert, List.mem_toFinset, List.toFinset_nil] at hx ⊢
    rcases hx with (h | h | h) | h | h
    · exact Or.inl (Or.inl h)
    · exact Or.inl (Or.inl (by simpa [Nfa.statesFinset] using hpn x h))
    · exact Or.inl (Or.inr (Or.inr h))
    · exact Or.inr h
    · simp only [List.toFinset_cons, List.toFinset_nil, Finset.mem_insert,
        Finset.not_mem_empty, or_false] at h
      exact Or.inl (Or.inr (Or.inl h))
  by_cases hs : s ∈ ret
  · -- the popped state was already recorded: the difference set cannot grow
    have hR : (ret ++ [s]).toFinset = ret.toFinset := by
      ext y
      simp only [List.toFinset_append, List.toFinset_cons, List.toFinset_nil,
        insert_emptyc_eq, Finset.mem_union, List.mem_toFinset,
        Finset.mem_singleton]
      exact ⟨fun h => h.elim id (fun he => he ▸ hs), fun h => Or.inl h⟩
    have hcard : ((nfa.statesFinset ∪ (P ++ rest).toFinset ∪
          (ret ++ [s]).toFinset) \ (ret ++ [s]).toFinset).card ≤
        ((nfa.statesFinset ∪ (s :: rest).toFinset ∪ ret.toFinset) \
          ret.toFinset).card := by
      apply Finset.card_le_card
      apply Finset.sdiff_subset_sdiff hU
      rw [hR]
    rcases hPc : P with _ | ⟨h0, t0⟩
    · -- nothing pushed: the stack shrinks by one
      rw [hPc] at hcard
      simp only [measEps1, hPc, List.nil_append]
      have hb1 := bMatch_le (ret ++ [s]) rest (nfa.destBound + 1)
      have hmul : (2 * nfa.destBound + 3) *
          ((nfa.statesFinset ∪ rest.toFinset ∪ (ret ++ [s]).toFinset) \
            (ret ++ [s]).toFinset).card ≤
          (2 * nfa.destBound + 3) *
          ((nfa.statesFinset ∪ (s :: rest).toFinset ∪ ret.toFinset) \
            ret.toFinset).card :=
        Nat.mul_le_mul_left _ hcard
      simp only [if_pos hs, List.length_cons, mul_one]
      omega
    · -- something pushed: the new top of the stack is fresh
      have hh0 : h0 ∉ ret ++ [s] := hpnot h0 (by rw [hPc]; exact List.mem_cons_self _ _)
      rw [hPc] at hcard
      simp only [measEps1, hPc, List.cons_append]
      simp only [if_pos hs, if_neg hh0, List.length_cons, mul_one, mul_zero,
        add_zero, List.length_append]
      have hlen : t0.length + 1 ≤ nfa.destBound := by
        have := hplen
        rw [hPc] at this
        simpa using this
      have hmul : (2 * nfa.destBound + 3) *
          ((nfa.statesFinset ∪ (h0 :: (t0 ++ rest)).toFinset ∪
            (ret ++ [s]).toFinset) \ (ret ++ [s]).toFinset).card ≤
          (2 * nfa.destBound + 3) *
          ((nfa.statesFinset ∪ (s :: rest).toFinset ∪ ret.toFinset) \
            ret.toFinset).card := by
        apply Nat.mul_le_mul_left
        calc ((nfa.statesFinset ∪ (h0 :: (t0 ++ rest)).toFinset ∪
              (ret ++ [s]).toFinset) \ (ret ++ [s]).toFinset).card
            = ((nfa.statesFinset ∪ ((h0 :: t0) ++ rest).toFinset ∪
              (ret ++ [s]).toFinset) \ (ret ++ [s]).toFinset).card := by
              rw [List.cons_append]
          _ ≤ _ := hcard
      omega
  · -- the popped state is fresh: the difference set strictly shrinks
    have hsS : s ∈ nfa.statesFinset ∪ (s :: rest).toFinset ∪ ret.toFinset := by
      simp
    have hsR : s ∉ ret.toFinset := by simpa using hs
    have hR : (ret ++ [s]).toFinset = insert s ret.toFinset := by
      ext y
      simp only [List.toFinset_append, List.toFinset_cons, List.toFinset_nil,
        insert_emptyc_eq, Finset.mem_union, List.mem_toFinset,
        Finset.mem_singleton, Finset.mem_insert]
      tauto
    have hsub : ((nfa.statesFinset ∪ (P ++ rest).toFinset ∪
          (ret ++ [s]).toFinset) \ (ret ++ [s]).toFinset) ⊆
        (((nfa.statesFinset ∪ (s :: rest).toFinset ∪ ret.toFinset) \
          ret.toFinset).erase s) := by
      intro x hx
      rw [Finset.mem_sdiff] at hx
      rw [Finset.mem_erase, Finset.mem_sdiff]
      have hxs : x ≠ s := by
        intro he
        apply hx.2
        rw [hR, he]
        exact Finset.mem_insert_self _ _
      have hxr : x ∉ ret.toFinset := by
        intro hmem
        apply hx.2
        rw [hR]
        exact Finset.mem_insert_of_mem hmem
      exact ⟨hxs, hU hx.1, hxr⟩
    have hcard : ((nfa.statesFinset ∪ (P ++ rest).toFinset ∪
          (ret ++ [s]).toFinset) \ (ret ++ [s]).toFinset).card + 1 ≤
        ((nfa.statesFinset ∪ (s :: rest).toFinset ∪ ret.toFinset) \
          ret.toFinset).card := by
      have h1 := Finset.card_le_card hsub
      have hsmem : s ∈ (nfa.statesFinset ∪ (s :: rest).toFinset ∪
          ret.toFinset) \ ret.toFinset := Finset.mem_sdiff.2 ⟨hsS, hsR⟩
      have h2 := Finset.card_erase_of_mem hsmem
      have h3 : 0 < ((nfa.statesFinset ∪ (s :: rest).toFinset ∪
          ret.toFinset) \ ret.toFinset).card := Finset.card_pos.2 ⟨s, hsmem⟩
      omega
    simp only [measEps1]
    have hb1 := bMatch_le (ret ++ [s]) (P ++ rest) (nfa.destBound + 1)
    simp only [if_neg hs, List.length_cons, mul_zero, add_zero,
      List.length_append]
    have hmul : (2 * nfa.destBound + 3) *
        (((nfa.statesFinset ∪ (P ++ rest).toFinset ∪
          (ret ++ [s]).toFinset) \ (ret ++ [s]).toFinset).card + 1) ≤
        (2 * nfa.destBound + 3) *
        ((nfa.statesFinset ∪ (s :: rest).toFinset ∪ ret.toFinset) \
          ret.toFinset).card :=
      Nat.mul_le_mul_left _ hcard
    rw [Nat.mul_add, Nat.mul_one] at hmul
    omega

/-- The measure of the inner closure loop strictly decreases at every
iteration, for arbitrary stack and `next_states` contents. -/
theorem measEps2_decrease (nfa : Nfa) (u : Nat) (rest ns : List Nat) :
    measEps2 nfa
      (((nfa.next_states u none).filter
          (fun x => !ns.contains x)).reverse ++ rest)
      (ns ++ nfa.next_states u none) <
    measEps2 nfa (u :: rest) ns := by
  classical
  set next := nfa.next_states u none with hnext
  set P := (next.filter (fun x => !ns.contains x)).reverse with hP
  have hnextU : ∀ x ∈ next, x ∈ nfa.statesFinset := by
    intro x hx
    exact mem_statesFinset_of_next hx
  have hplen : P.length ≤ nfa.destBound := by
    rw [hP, List.length_reverse]
    calc (next.filter (fun x => !ns.contains x)).length
        ≤ next.length := List.length_filter_le _ _
      _ ≤ nfa.destBound := next_states_length_le nfa u none
  have hU : (nfa.statesFinset ∪ (P ++ rest).toFinset ∪
        (ns ++ next).toFinset) ⊆
      ((nfa.statesFinset ∪ (u :: rest).toFinset ∪ ns.toFinset) : Finset Nat) := by
    intro x hx
    simp only [Finset.mem_union, List.toFinset_append, List.toFinset_cons,
      Finset.mem_insert, List.mem_toFinset] at hx ⊢
    rcases hx with (h | h | h) | h | h
    · exact Or.inl (Or.inl h)
    · rw [hP, List.mem_reverse, List.mem_filter] at h
      exact Or.inl (Or.inl (by simpa [Nfa.statesFinset] using hnextU x h.1))
    · exact Or.inl (Or.inr (Or.inr h))
    · exact Or.inr h
    · exact Or.inl (Or.inl (by simpa [Nfa.statesFinset] using hnextU x h))
  by_cases hall : ∀ x ∈ next, x ∈ ns
  · -- no fresh element: nothing is pushed, the stack shrinks
    have hPnil : P = [] := by
      rw [hP, List.reverse_eq_nil_iff]
      rw [List.filter_eq_nil_iff]
      intro a ha
      simp only [Bool.not_eq_true', Bool.not_eq_false]
      rw [List.contains]
      rw [List.elem_eq_true_of_mem]
      exact hall a ha
    have hR : (ns ++ next).toFinset = ns.toFinset := by
      ext y
      simp only [List.toFinset_append, Finset.mem_union, List.mem_toFinset]
      exact ⟨fun h => h.elim id (fun h2 => hall y h2), fun h => Or.inl h⟩
    have hcard : ((nfa.statesFinset ∪ (P ++ rest).toFinset ∪
          (ns ++ next).toFinset) \ (ns ++ next).toFinset).card ≤
        ((nfa.statesFinset ∪ (u :: rest).toFinset ∪ ns.toFinset) \
          ns.toFinset).card := by
      apply Finset.card_le_card
      apply Finset.sdiff_subset_sdiff hU
      rw [hR]
    simp only [measEps2, hPnil, List.nil_append]
    rw [hPnil, List.nil_append] at hcard
    have hmul := Nat.mul_le_mul_left (2 * nfa.destBound + 3) hcard
    simp only [List.length_cons]
    omega
  · -- some fresh element: the difference set strictly shrinks
    push_neg at hall
    obtain ⟨x0, hx0next, hx0ns⟩ := hall
    have hx0S : x0 ∈ (nfa.statesFinset ∪ (u :: rest).toFinset ∪
        ns.toFinset) \ ns.toFinset := by
      rw [Finset.mem_sdiff]
      constructor
      · simp only [Finset.mem_union]
        exact Or.inl (Or.inl (hnextU x0 hx0next))
      · simpa using hx0ns
    have hsub : ((nfa.statesFinset ∪ (P ++ rest).toFinset ∪
          (ns ++ next).toFinset) \ (ns ++ next).toFinset) ⊆
        (((nfa.statesFinset ∪ (u :: rest).toFinset ∪ ns.toFinset) \
          ns.toFinset).erase x0) := by
      intro y hy
      rw [Finset.mem_sdiff] at hy
      rw [Finset.mem_erase, Finset.mem_sdiff]
      have hyx0 : y ≠ x0 := by
        intro he
        apply hy.2
        simp only [List.toFinset_append, Finset.mem_union, List.mem_toFinset]
        exact Or.inr (he ▸ hx0next)
      have hyns : y ∉ ns.toFinset := by
        intro hmem
        apply hy.2
        simp only [List.toFinset_append, Finset.mem_union]
        exact Or.inl hmem
      exact ⟨hyx0, hU hy.1, hyns⟩
    have hcard : ((nfa.statesFinset ∪ (P ++ rest).toFinset ∪
          (ns ++ next).toFinset) \ (ns ++ next).toFinset).card + 1 ≤
        ((nfa.statesFinset ∪ (u :: rest).toFinset ∪ ns.toFinset) \
          ns.toFinset).card := by
      have h1 := Finset.card_le_card hsub
      have h2 := Finset.card_erase_of_mem hx0S
      have h3 : 0 < ((nfa.statesFinset ∪ (u :: rest).toFinset ∪
          ns.toFinset) \ ns.toFinset).card := Finset.card_pos.2 ⟨x0, hx0S⟩
      omega
    simp only [measEps2, List.length_append, List.length_cons]
    have hmul : (2 * nfa.destBound + 3) *
        (((nfa.statesFinset ∪ (P ++ rest).toFinset ∪
          (ns ++ next).toFinset) \ (ns ++ next).toFinset).card + 1) ≤
        (2 * nfa.destBound + 3) *
        ((nfa.statesFinset ∪ (u :: rest).toFinset ∪ ns.toFinset) \
          ns.toFinset).card :=
      Nat.mul_le_mul_left _ hcard
    rw [Nat.mul_add, Nat.mul_one] at hmul
    omega

theorem not_contains_of_not_mem {l : List Nat} {x : Nat} (h : x ∉ l) :
    (!l.contains x) = true := by
  rw [Bool.not_eq_true']
  by_contra hc
  rw [Bool.not_eq_false] at hc
  apply h
  rw [List.contains] at hc
  rwa [← List.elem_iff (a := x)]

theorem epsReach_mem_states {nfa : Nfa} {x y : Nat} (h : EpsReach nfa x y) :
    y = x ∨ y ∈ nfa.statesList := by
  induction h with
  | refl => exact Or.inl rfl
  | tail _ hz _ => exact Or.inr (mem_statesList_of_next _ hz)

/-! ### What the start-closure loop computes -/

/-- Invariant-based characterisation of `epsLoop1`: given sound inputs, the
result extends `ret`, stays inside the epsilon reach of `A`, and is closed
under epsilon transitions. -/
theorem epsLoop1_spec (nfa : Nfa) (A : Set Nat) :
    ∀ fuel stack ret, measEps1 nfa stack ret < fuel →
      (∀ x ∈ ret, x ∈ epsReachSet nfa A) →
      (∀ x ∈ stack, x ∈ epsReachSet nfa A) →
      (∀ x ∈ ret, ∀ y ∈ nfa.next_states x none, y ∈ ret ∨ y ∈ stack) →
      (∀ x ∈ ret, x ∈ epsLoop1 nfa fuel stack ret) ∧
      (∀ x ∈ epsLoop1 nfa fuel stack ret, x ∈ epsReachSet nfa A) ∧
      (∀ x ∈ epsLoop1 nfa fuel stack ret, ∀ y ∈ nfa.next_states x none,
        y ∈ epsLoop1 nfa fuel stack ret) := by
  intro fuel
  induction fuel with
  | zero => intro stack ret h; exact absurd h (Nat.not_lt_zero _)
  | succ m ih =>
    intro stack ret hmeas hret hstack hclosed
    cases stack with
    | nil =>
      refine ⟨fun x hx => hx, hret, ?_⟩
      intro x hx y hy
      rcases hclosed x hx y hy with h | h
      · exact h
      · cases h
    | cons s rest =>
      have hstep : epsLoop1 nfa (m + 1) (s :: rest) ret =
          epsLoop1 nfa m
            (((nfa.next_states s none).filter
              (fun x => !(ret ++ [s]).contains x)).reverse ++ rest)
            (ret ++ [s]) := rfl
      rw [hstep]
      have hsreach : s ∈ epsReachSet nfa A :=
        hstack s (List.mem_cons_self _ _)
      have hret2 : ∀ x ∈ ret ++ [s], x ∈ epsReachSet nfa A := by
        intro x hx
        rcases List.mem_append.1 hx with h | h
        · exact hret x h
        · rw [List.mem_singleton] at h
          exact h ▸ hsreach
      have hstack2 : ∀ x ∈ ((nfa.next_states s none).filter
          (fun x => !(ret ++ [s]).contains x)).reverse ++ rest,
          x ∈ epsReachSet nfa A := by
        intro x hx
        rcases List.mem_append.1 hx with h | h
        · rw [List.mem_reverse, List.mem_filter] at h
          obtain ⟨x0, hx0, hr⟩ := hsreach
          exact ⟨x0, hx0, EpsReach.tail hr h.1⟩
        · exact hstack x (List.mem_cons_of_mem _ h)
      have hclosed2 : ∀ x ∈ ret ++ [s], ∀ y ∈ nfa.next_states x none,
          y ∈ ret ++ [s] ∨
          y ∈ ((nfa.next_states s none).filter
            (fun x => !(ret ++ [s]).contains x)).reverse ++ rest := by
        intro x hx y hy
        rcases List.mem_append.1 hx with h | h
        · rcases hclosed x h y hy with h2 | h2
          · exact Or.inl (List.mem_append_left _ h2)
          · rcases List.mem_cons.1 h2 with h3 | h3
            · exact Or.inl (List.mem_append_right _
                (h3 ▸ List.mem_singleton_self _))
            · exact Or.inr (List.mem_append_right _ h3)
        · rw [List.mem_singleton] at h
          subst h
          by_cases hmem : y ∈ ret ++ [x]
          · exact Or.inl hmem
          · refine Or.inr (List.mem_append_left _ ?_)
            rw [List.mem_reverse, List.mem_filter]
            exact ⟨hy, not_contains_of_not_mem hmem⟩
      have hmeas2 : measEps1 nfa
          (((nfa.next_states s none).filter
            (fun x => !(ret ++ [s]).contains x)).reverse ++ rest)
          (ret ++ [s]) < m := by
        have := measEps1_decrease nfa s rest ret
        omega
      obtain ⟨r1, r2, r3⟩ := ih _ _ hmeas2 hret2 hstack2 hclosed2
      exact ⟨fun x hx => r1 x (List.mem_append_left _ hx), r2, r3⟩

/-- The set of states returned by the start-closure traversal of
`Dfa::from_nfa` is exactly the epsilon closure of `{nfa.start}` in the sense
of the specification. -/
theorem startList_isEpsClosure (nfa : Nfa) :
    IsEpsClosure nfa {nfa.start} {x | x ∈ startList nfa} := by
  have hspec := epsLoop1_spec nfa {nfa.start}
    (measEps1 nfa ((nfa.next_states nfa.start none).reverse) [nfa.start] + 1)
    ((nfa.next_states nfa.start none).reverse) [nfa.start]
    (Nat.lt_succ_self _)
    (by
      intro x hx
      rw [List.mem_singleton] at hx
      exact ⟨nfa.start, rfl, hx ▸ EpsReach.refl _⟩)
    (by
      intro x hx
      rw [List.mem_reverse] at hx
      exact ⟨nfa.start, rfl, EpsReach.tail (EpsReach.refl _) hx⟩)
    (by
      intro x hx y hy
      rw [List.mem_singleton] at hx
      subst hx
      exact Or.inr (List.mem_reverse.2 hy))
  obtain ⟨r1, r2, r3⟩ := hspec
  refine ⟨?_, ?_, ?_⟩
  · intro x hx
    rw [Set.mem_singleton_iff] at hx
    exact hx ▸ r1 nfa.start (List.mem_singleton_self _)
  · intro x hx y hy
    exact r3 x hx y hy
  · intro D hAD hD x hx
    exact epsClosed_contains_reach hAD hD (r2 x hx)

theorem startList_eq_reach (nfa : Nfa) :
    {x | x ∈ startList nfa} = epsReachSet nfa {nfa.start} :=
  isEpsClosure_eq (startList_isEpsClosure nfa)

/-! ### What the inner closure loop computes -/

/-- Invariant-based characterisation of `epsLoop2`. -/
theorem epsLoop2_spec (nfa : Nfa) (A : Set Nat) :
    ∀ fuel stack ns, measEps2 nfa stack ns < fuel →
      (∀ x ∈ ns, x ∈ epsReachSet nfa A) →
      (∀ x ∈ stack, x ∈ ns) →
      (∀ x ∈ ns, x ∈ stack ∨ ∀ y ∈ nfa.next_states x none, y ∈ ns) →
      (∀ x ∈ ns, x ∈ epsLoop2 nfa fuel stack ns) ∧
      (∀ x ∈ epsLoop2 nfa fuel stack ns, x ∈ epsReachSet nfa A) ∧
      (∀ x ∈ epsLoop2 nfa fuel stack ns, ∀ y ∈ nfa.next_states x none,
        y ∈ epsLoop2 nfa fuel stack ns) := by
  intro fuel
  induction fuel with
  | zero => intro stack ns h; exact absurd h (Nat.not_lt_zero _)
  | succ m ih =>
    intro stack ns hmeas hns hstack hinv
    cases stack with
    | nil =>
      refine ⟨fun x hx => hx, hns, ?_⟩
      intro x hx y hy
      rcases hinv x hx with h | h
      · cases h
      · exact h y hy
    | cons u rest =>
      have hstep : epsLoop2 nfa (m + 1) (u :: rest) ns =
          epsLoop2 nfa m
            (((nfa.next_states u none).filter
              (fun x => !ns.contains x)).reverse ++ rest)
            (ns ++ nfa.next_states u none) := rfl
      rw [hstep]
      have hureach : u ∈ epsReachSet nfa A :=
        hns u (hstack u (List.mem_cons_self _ _))
      have hns2 : ∀ x ∈ ns ++ nfa.next_states u none,
          x ∈ epsReachSet nfa A := by
        intro x hx
        rcases List.mem_append.1 hx with h | h
        · exact hns x h
        · obtain ⟨x0, hx0, hr⟩ := hureach
          exact ⟨x0, hx0, EpsReach.tail hr h⟩
      have hstack2 : ∀ x ∈ ((nfa.next_states u none).filter
          (fun x => !ns.contains x)).reverse ++ rest,
          x ∈ ns ++ nfa.next_states u none := by
        intro x hx
        rcases List.mem_append.1 hx with h | h
        · rw [List.mem_reverse, List.mem_filter] at h
          exact List.mem_append_right _ h.1
        · exact List.mem_append_left _ (hstack x (List.mem_cons_of_mem _ h))
      have hinv2 : ∀ x ∈ ns ++ nfa.next_states u none,
          x ∈ ((nfa.next_states u none).filter
            (fun x => !ns.contains x)).reverse ++ rest ∨
          ∀ y ∈ nfa.next_states x none, y ∈ ns ++ nfa.next_states u none := by
        intro x hx
        by_cases hxns : x ∈ ns
        · rcases hinv x hxns with h | h
          · rcases List.mem_cons.1 h with h2 | h2
            · subst h2
              exact Or.inr (fun y hy => List.mem_append_right _ hy)
            · exact Or.inl (List.mem_append_right _ h2)
          · exact Or.inr (fun y hy => List.mem_append_left _ (h y hy))
        · rcases List.mem_append.1 hx with h | h
          · exact absurd h hxns
          · refine Or.inl (List.mem_append_left _ ?_)
            rw [List.mem_reverse, List.mem_filter]
            exact ⟨h, not_contains_of_not_mem hxns⟩
      have hmeas2 : measEps2 nfa
          (((nfa.next_states u none).filter
            (fun x => !ns.contains x)).reverse ++ rest)
          (ns ++ nfa.next_states u none) < m := by
        have := measEps2_decrease nfa u rest ns
        omega
      obtain ⟨r1, r2, r3⟩ := ih _ _ hmeas2 hns2 hstack2 hinv2
      exact ⟨fun x hx => r1 x (List.mem_append_left _ hx), r2, r3⟩

/-- The per-symbol closure list computed by `Dfa::from_nfa` is exactly the
epsilon closure of its seed set. -/
theorem closureList_isEpsClosure (nfa : Nfa) (init : List Nat) :
    IsEpsClosure nfa {x | x ∈ init} {x | x ∈ closureList nfa init} := by
  have hspec := epsLoop2_spec nfa {x | x ∈ init}
    (measEps2 nfa
      ((init.filter (fun x => !(nfa.next_states x none).isEmpty)).reverse)
      init + 1)
    ((init.filter (fun x => !(nfa.next_states x none).isEmpty)).reverse) init
    (Nat.lt_succ_self _)
    (fun x hx => ⟨x, hx, EpsReach.refl _⟩)
    (by
      intro x hx
      rw [List.mem_reverse, List.mem_filter] at hx
      exact hx.1)
    (by
      intro x hx
      by_cases hne : (nfa.next_states x none).isEmpty
      · refine Or.inr (fun y hy => ?_)
        rw [List.isEmpty_iff] at hne
        rw [hne] at hy
        cases hy
      · refine Or.inl ?_
        rw [List.mem_reverse, List.mem_filter]
        exact ⟨hx, by rwa [Bool.not_eq_true', ← Bool.not_eq_true]⟩)
  obtain ⟨r1, r2, r3⟩ := hspec
  exact ⟨fun x hx => r1 x hx, fun x hx y hy => r3 x hx y hy,
    fun D hAD hD x hx => epsClosed_contains_reach hAD hD (r2 x hx)⟩

theorem closureList_eq_reach (nfa : Nfa) (init : List Nat) :
    {x | x ∈ closureList nfa init} = epsReachSet nfa {x | x ∈ init} :=
  isEpsClosure_eq (closureList_isEpsClosure nfa init)

/-! ### Monotonicity of the registrar through the worklist loop -/

theorem assocFind_append_left {α β : Type} [DecidableEq α]
    {l : List (α × β)} {k : α} {v : β} (l2 : List (α × β))
    (h : assocFind l k = some v) : assocFind (l ++ l2) k = some v := by
  induction l with
  | nil => simp [assocFind] at h
  | cons e t ih =>
    obtain ⟨k0, v0⟩ := e
    by_cases hk : k = k0
    · simp only [assocFind, if_pos hk] at h ⊢
      exact h
    · simp only [assocFind, if_neg hk] at h ⊢
      exact ih h

theorem get_state_map_mono (ctx : DfaContext) (l : List Nat) :
    ∃ suffix, (ctx.get_state l).2.state_map = ctx.state_map ++ suffix := by
  unfold DfaContext.get_state
  rcases h : assocFind ctx.state_map (sortList l) with _ | id
  · refine ⟨[(sortList l, ctx.state_count)], ?_⟩
    simp only [h]
  · refine ⟨[], ?_⟩
    simp only [h]
    simp

theorem stepEntries_map_mono (v2 : Finset Nat) (form : Nat) :
    ∀ (entries : List (Char × List Nat)) (ctx : DfaContext)
      (pushed : List (List Nat)) (tr : List ((Nat × Char) × Nat)),
      ∃ suffix, (stepEntries v2 form entries ctx pushed tr).1.state_map =
        ctx.state_map ++ suffix := by
  intro entries
  induction entries with
  | nil => intro ctx pushed tr; exact ⟨[], by simp [stepEntries]⟩
  | cons e t ih =>
    intro ctx pushed tr
    obtain ⟨c, ns⟩ := e
    obtain ⟨s1, hs1⟩ := get_state_map_mono ctx ns
    obtain ⟨s2, hs2⟩ := ih (ctx.get_state ns).2 _ _
    refine ⟨s1 ++ s2, ?_⟩
    rw [stepEntries]
    rw [hs2, hs1, List.append_assoc]

theorem step_map_mono (nfa : Nfa) (st : DState) :
    ∃ suffix, (step nfa st).ctx.state_map = st.ctx.state_map ++ suffix := by
  rcases hw : st.waiting with _ | ⟨look, rest⟩
  · refine ⟨[], ?_⟩
    unfold step
    rw [hw]
    simp
  · obtain ⟨s1, hs1⟩ := get_state_map_mono st.ctx look
    obtain ⟨s2, hs2⟩ := get_state_map_mono (st.ctx.get_state look).2 look
    obtain ⟨s3, hs3⟩ := stepEntries_map_mono
      (insert (st.ctx.get_state look).1 st.visited)
      ((st.ctx.get_state look).2.get_state look).1 (buildTmap nfa look)
      ((st.ctx.get_state look).2.get_state look).2 [] st.trans
    refine ⟨s1 ++ (s2 ++ s3), ?_⟩
    unfold step
    rw [hw]
    dsimp only
    rw [hs3, hs2, hs1]
    simp [List.append_assoc]

theorem stepN_map_mono (nfa : Nfa) :
    ∀ (fuel : Nat) (st : DState),
      ∃ suffix, (stepN nfa fuel st).ctx.state_map =
        st.ctx.state_map ++ suffix := by
  intro fuel
  induction fuel with
  | zero => intro st; exact ⟨[], by simp [stepN]⟩
  | succ m ih =>
    intro st
    rcases hw : st.waiting with _ | ⟨look, rest⟩
    · refine ⟨[], ?_⟩
      unfold stepN
      rw [hw]
      simp
    · obtain ⟨s1, hs1⟩ := step_map_mono nfa st
      obtain ⟨s2, hs2⟩ := ih (step nfa st)
      refine ⟨s1 ++ s2, ?_⟩
      unfold stepN
      rw [hw]
      dsimp only
      rw [hs2, hs1, List.append_assoc]

theorem dfaContext_empty_get_fst (l : List Nat) :
    (DfaContext.empty.get_state l).1 = 0 := rfl

theorem initState_ctx_map (nfa : Nfa) :
    (initState nfa).ctx.state_map = [(sortList (startList nfa), 0)] := rfl

/-! ### C7: the DFA start state is the registered epsilon closure of the
NFA start state -/

/-- C7: `Dfa::from_nfa` sets the DFA start state to
`registrar.get_or_create(closure({nfa.start}))`: the start id is the id the
fresh registrar assigns to the start traversal's result, that result is
exactly the smallest epsilon-closed superset of `{nfa.start}`, and the final
registrar still maps its canonical key to the start id. -/
theorem c7_start_closure (nfa : Nfa) :
    (Dfa.from_nfa nfa).start = (DfaContext.empty.get_state (startList nfa)).1 ∧
    IsEpsClosure nfa {nfa.start} {x | x ∈ startList nfa} ∧
    assocFind (determinize nfa).ctx.state_map (sortList (startList nfa)) =
      some ((Dfa.from_nfa nfa).start) := by
  refine ⟨rfl, startList_isEpsClosure nfa, ?_⟩
  have h0 : (Dfa.from_nfa nfa).start = 0 := rfl
  rw [h0]
  obtain ⟨suffix, hs⟩ := stepN_map_mono nfa (mainFuel nfa) (initState nfa)
  show assocFind (stepN nfa (mainFuel nfa) (initState nfa)).ctx.state_map
      (sortList (startList nfa)) = some 0
  rw [hs, initState_ctx_map]
  apply assocFind_append_left
  simp [assocFind]

/-! ### The transition map of one expansion -/

theorem extendDedup_cons (e : List Nat) (a : Nat) (t : List Nat) :
    extendDedup e (a :: t) =
      extendDedup (if a ∈ e then e else e ++ [a]) t := rfl

theorem mem_extendDedup (l : List Nat) :
    ∀ (e : List Nat) (x : Nat), x ∈ extendDedup e l ↔ x ∈ e ∨ x ∈ l := by
  induction l with
  | nil => intro e x; simp [extendDedup]
  | cons a t ih =>
    intro e x
    rw [extendDedup_cons, ih]
    by_cases ha : a ∈ e
    · rw [if_pos ha]
      simp only [List.mem_cons]
      constructor
      · rintro (h | h)
        · exact Or.inl h
        · exact Or.inr (Or.inr h)
      · rintro (h | h | h)
        · exact Or.inl h
        · exact Or.inl (h ▸ ha)
        · exact Or.inr h
    · rw [if_neg ha]
      simp only [List.mem_append, List.mem_singleton, List.mem_cons]
      tauto

theorem nodup_extendDedup (l : List Nat) :
    ∀ e : List Nat, e.Nodup → (extendDedup e l).Nodup := by
  induction l with
  | nil => intro e he; simpa [extendDedup] using he
  | cons a t ih =>
    intro e he
    rw [extendDedup_cons]
    apply ih
    by_cases ha : a ∈ e
    · rwa [if_pos ha]
    · rw [if_neg ha, List.nodup_append]
      refine ⟨he, List.nodup_singleton a, ?_⟩
      intro x hx
      simp only [List.mem_singleton]
      intro he2
      exact ha (he2 ▸ hx)

theorem assocFind_tmapExtend_self (c : Char) (ns : List Nat) :
    ∀ tm : List (Char × List Nat),
      assocFind (tmapExtend tm c ns) c =
        some (extendDedup ((assocFind tm c).getD []) ns) := by
  intro tm
  induction tm with
  | nil => simp [tmapExtend, assocFind]
  | cons e t ih =>
    obtain ⟨k, v⟩ := e
    by_cases hk : c = k
    · subst hk
      simp [tmapExtend, assocFind]
    · simp only [tmapExtend, if_neg hk, assocFind, if_neg hk]
      exact ih

theorem assocFind_tmapExtend_other (c : Char) (ns : List Nat) (c' : Char)
    (h : c' ≠ c) :
    ∀ tm : List (Char × List Nat),
      assocFind (tmapExtend tm c ns) c' = assocFind tm c' := by
  intro tm
  induction tm with
  | nil => simp [tmapExtend, assocFind, h]
  | cons e t ih =>
    obtain ⟨k, v⟩ := e
    by_cases hk : c = k
    · subst hk
      simp only [tmapExtend, if_pos rfl, assocFind, if_neg h]
    · simp only [tmapExtend, if_neg hk, assocFind]
      by_cases hk2 : c' = k
      · simp [hk2]
      · simp only [if_neg hk2]
        exact ih

theorem tmapExtend_keys (c : Char) (ns : List Nat) :
    ∀ tm : List (Char × List Nat),
      (tmapExtend tm c ns).map Prod.fst =
        if c ∈ tm.map Prod.fst then tm.map Prod.fst
        else tm.map Prod.fst ++ [c] := by
  intro tm
  induction tm with
  | nil => simp [tmapExtend]
  | cons e t ih =>
    obtain ⟨k, v⟩ := e
    by_cases hk : c = k
    · subst hk
      simp [tmapExtend]
    · simp only [tmapExtend, if_neg hk, List.map_cons]
      rw [ih]
      by_cases hmem : c ∈ t.map Prod.fst
      · rw [if_pos hmem, if_pos]
        simp [hmem]
      · rw [if_neg hmem, if_neg]
        · simp
        · simp only [List.mem_cons]
          push_neg
          exact ⟨fun he => hk (by simpa using he), hmem⟩

theorem tmapExtend_keys_nodup {tm : List (Char × List Nat)} (c : Char)
    (ns : List Nat) (h : (tm.map Prod.fst).Nodup) :
    ((tmapExtend tm c ns).map Prod.fst).Nodup := by
  rw [tmapExtend_keys]
  by_cases hmem : c ∈ tm.map Prod.fst
  · rwa [if_pos hmem]
  · rw [if_neg hmem, List.nodup_append]
    refine ⟨h, List.nodup_singleton c, ?_⟩
    intro x hx
    simp only [List.mem_singleton]
    intro he
    exact hmem (he ▸ hx)

theorem assocFind_mapInsert_self (k : Nat × Char) (v : Nat) :
    ∀ l : List ((Nat × Char) × Nat),
      assocFind (mapInsert l k v) k = some v := by
  intro l
  induction l with
  | nil => simp [mapInsert, assocFind]
  | cons e t ih =>
    obtain ⟨k0, v0⟩ := e
    by_cases hk : k = k0
    · subst hk
      simp [mapInsert, assocFind]
    · simp only [mapInsert, if_neg hk, assocFind, if_neg hk]
      exact ih

theorem assocFind_mapInsert_other (k : Nat × Char) (v : Nat)
    (k' : Nat × Char) (h : k' ≠ k) :
    ∀ l : List ((Nat × Char) × Nat),
      assocFind (mapInsert l k v) k' = assocFind l k' := by
  intro l
  induction l with
  | nil => simp [mapInsert, assocFind, h]
  | cons e t ih =>
    obtain ⟨k0, v0⟩ := e
    by_cases hk : k = k0
    · subst hk
      simp only [mapInsert, if_pos rfl, assocFind, if_neg h]
    · simp only [mapInsert, if_neg hk, assocFind]
      by_cases hk2 : k' = k0
      · simp [hk2]
      · simp only [if_neg hk2]
        exact ih

theorem mem_getD_assoc {tm : List (Char × List Nat)} {c : Char} {x : Nat} :
    x ∈ (assocFind tm c).getD [] ↔
      ∃ v0, assocFind tm c = some v0 ∧ x ∈ v0 := by
  rcases h : assocFind tm c with _ | w <;> simp [h]

/-- What the `for char in next_chars(look_state)` fold adds to the
transition map for one source state `s`. -/
theorem innerFold_spec (nfa : Nfa) (s : Nat) :
    ∀ (cs : List Char) (tm : List (Char × List Nat)) (c' : Char),
      (assocFind (cs.foldl (fun tm2 c => tmapExtend tm2 c
          (closureList nfa
            (nfa.next_states s (some c) ++ nfa.next_states s none))) tm) c'
        = none ↔ (assocFind tm c' = none ∧ c' ∉ cs)) ∧
      (∀ v, assocFind (cs.foldl (fun tm2 c => tmapExtend tm2 c
          (closureList nfa
            (nfa.next_states s (some c) ++ nfa.next_states s none))) tm) c'
        = some v →
        {x | x ∈ v} =
          {x | ∃ v0, assocFind tm c' = some v0 ∧ x ∈ v0} ∪
          (if c' ∈ cs then
            {x | x ∈ closureList nfa
              (nfa.next_states s (some c') ++ nfa.next_states s none)}
          else (∅ : Set Nat))) := by
  intro cs
  induction cs with
  | nil =>
    intro tm c'
    constructor
    · simp
    · intro v hv
      rw [List.foldl_nil] at hv
      ext x
      simp only [Set.mem_union, Set.mem_setOf_eq, List.not_mem_nil,
        if_false, Set.mem_empty_iff_false, or_false, hv, Option.some.injEq]
      constructor
      · intro hx
        exact ⟨v, rfl, hx⟩
      · rintro ⟨v0, rfl, hx⟩
        exact hx
  | cons c cs ih =>
    intro tm c'
    rw [List.foldl_cons]
    obtain ⟨ih1, ih2⟩ := ih (tmapExtend tm c (closureList nfa
      (nfa.next_states s (some c) ++ nfa.next_states s none))) c'
    by_cases hcc : c' = c
    · subst hcc
      have hself := assocFind_tmapExtend_self c' (closureList nfa
        (nfa.next_states s (some c') ++ nfa.next_states s none)) tm
      constructor
      · rw [ih1]
        constructor
        · rintro ⟨h1, _⟩
          rw [hself] at h1
          cases h1
        · intro h
          exact absurd (List.mem_cons_self _ _) h.2
      · intro v hv
        have hset := ih2 v hv
        rw [hset]
        have hmain : {x | ∃ v0, assocFind (tmapExtend tm c' (closureList nfa
            (nfa.next_states s (some c') ++ nfa.next_states s none))) c' =
              some v0 ∧ x ∈ v0} =
            {x | ∃ v0, assocFind tm c' = some v0 ∧ x ∈ v0} ∪
            {x | x ∈ closureList nfa
              (nfa.next_states s (some c') ++ nfa.next_states s none)} := by
          ext x
          simp only [Set.mem_setOf_eq, Set.mem_union, hself,
            Option.some.injEq]
          constructor
          · rintro ⟨v0, rfl, hx⟩
            rw [mem_extendDedup] at hx
            rcases hx with hx | hx
            · exact Or.inl (mem_getD_assoc.1 hx)
            · exact Or.inr hx
          · intro h
            refine ⟨_, rfl, ?_⟩
            rw [mem_extendDedup]
            rcases h with h | h
            · exact Or.inl (mem_getD_assoc.2 h)
            · exact Or.inr h
        rw [hmain]
        ext x
        by_cases hmem : c' ∈ cs <;> simp [hmem, List.mem_cons]
    · have hother := assocFind_tmapExtend_other c (closureList nfa
        (nfa.next_states s (some c) ++ nfa.next_states s none)) c' hcc tm
      constructor
      · rw [ih1, hother]
        simp [List.mem_cons, hcc]
      · intro v hv
        have hset := ih2 v hv
        rw [hset, hother]
        have hcond : (c' ∈ c :: cs) ↔ (c' ∈ cs) := by
          simp [List.mem_cons, hcc]
        rw [if_congr hcond rfl rfl]

theorem mem_filterMap_id {l : List (Option Char)} {c : Char} :
    c ∈ l.filterMap id ↔ some c ∈ l := by
  simp [List.mem_filterMap]

/-- What the whole `for look_state in &look_states` fold computes: entry
presence and entry contents of the transition map, for any accumulator. -/
theorem lookFold_spec (nfa : Nfa) :
    ∀ (look : List Nat) (tm : List (Char × List Nat)) (c' : Char),
      (assocFind (look.foldl (fun tm3 s =>
          ((nfa.next_chars s).filterMap id).foldl (fun tm2 c =>
            tmapExtend tm2 c (closureList nfa
              (nfa.next_states s (some c) ++ nfa.next_states s none))) tm3)
          tm) c' = none ↔
        (assocFind tm c' = none ∧
          ¬∃ s ∈ look, (some c') ∈ nfa.next_chars s)) ∧
      (∀ v, assocFind (look.foldl (fun tm3 s =>
          ((nfa.next_chars s).filterMap id).foldl (fun tm2 c =>
            tmapExtend tm2 c (closureList nfa
              (nfa.next_states s (some c) ++ nfa.next_states s none))) tm3)
          tm) c' = some v →
        {x | x ∈ v} =
          {x | ∃ v0, assocFind tm c' = some v0 ∧ x ∈ v0} ∪
          {y | ∃ s ∈ look, (some c') ∈ nfa.next_chars s ∧
            y ∈ closureList nfa
              (nfa.next_states s (some c') ++ nfa.next_states s none)}) := by
  intro look
  induction look with
  | nil =>
    intro tm c'
    constructor
    · simp
    · intro v hv
      rw [List.foldl_nil] at hv
      ext x
      simp only [Set.mem_union, Set.mem_setOf_eq, List.not_mem_nil,
        false_and, exists_false, or_false, hv, Option.some.injEq]
      constructor
      · intro hx
        exact ⟨v, rfl, hx⟩
      · rintro ⟨v0, rfl, hx⟩
        exact hx
  | cons s look2 ih =>
    intro tm c'
    rw [List.foldl_cons]
    obtain ⟨ih1, ih2⟩ := ih (((nfa.next_chars s).filterMap id).foldl
      (fun tm2 c => tmapExtend tm2 c (closureList nfa
        (nfa.next_states s (some c) ++ nfa.next_states s none))) tm) c'
    obtain ⟨in1, in2⟩ := innerFold_spec nfa s ((nfa.next_chars s).filterMap id)
      tm c'
    constructor
    · rw [ih1, in1, mem_filterMap_id]
      constructor
      · rintro ⟨⟨h1, h2⟩, h3⟩
        refine ⟨h1, ?_⟩
        rintro ⟨s2, hs2, hc2⟩
        rcases List.mem_cons.1 hs2 with h4 | h4
        · exact h2 (h4 ▸ hc2)
        · exact h3 ⟨s2, h4, hc2⟩
      · rintro ⟨h1, h2⟩
        refine ⟨⟨h1, ?_⟩, ?_⟩
        · intro hc
          exact h2 ⟨s, List.mem_cons_self _ _, hc⟩
        · rintro ⟨s2, hs2, hc2⟩
          exact h2 ⟨s2, List.mem_cons_of_mem _ hs2, hc2⟩
    · intro v hv
      have hset := ih2 v hv
      rw [hset]
      have hinner : {x | ∃ v0, assocFind
          (((nfa.next_chars s).filterMap id).foldl (fun tm2 c =>
            tmapExtend tm2 c (closureList nfa
              (nfa.next_states s (some c) ++ nfa.next_states s none))) tm)
          c' = some v0 ∧ x ∈ v0} =
          {x | ∃ v0, assocFind tm c' = some v0 ∧ x ∈ v0} ∪
          (if (some c') ∈ nfa.next_chars s then
            {x | x ∈ closureList nfa
              (nfa.next_states s (some c') ++ nfa.next_states s none)}
          else (∅ : Set Nat)) := by
        rcases hfind : assocFind (((nfa.next_chars s).filterMap id).foldl
            (fun tm2 c => tmapExtend tm2 c (closureList nfa
              (nfa.next_states s (some c) ++ nfa.next_states s none))) tm)
            c' with _ | w
        · obtain ⟨h1, h2⟩ := in1.1 hfind
          rw [mem_filterMap_id] at h2
          ext x
          simp [hfind, h1, h2]
        · have hw := in2 w hfind
          simp only [mem_filterMap_id] at hw
          ext x
          simp only [Set.mem_setOf_eq, hfind, Option.some.injEq]
          constructor
          · rintro ⟨v0, hv0, hx⟩
            subst hv0
            have hx2 : x ∈ {z | z ∈ w} := hx
            rw [hw] at hx2
            exact hx2
          · intro hx
            refine ⟨w, rfl, ?_⟩
            have hx2 : x ∈ {z | z ∈ w} := by rw [hw]; exact hx
            exact hx2
      rw [hinner]
      ext x
      by_cases hc : (some c') ∈ nfa.next_chars s
      · simp only [Set.mem_union, Set.mem_setOf_eq, if_pos hc,
          List.mem_cons]
        constructor
        · rintro ((h | h) | h)
          · exact Or.inl h
          · exact Or.inr ⟨s, Or.inl rfl, hc, h⟩
          · obtain ⟨s2, hs2, hc2, hx2⟩ := h
            exact Or.inr ⟨s2, Or.inr hs2, hc2, hx2⟩
        · rintro (h | ⟨s2, hs2 | hs2, hc2, hx2⟩)
          · exact Or.inl (Or.inl h)
          · exact Or.inl (Or.inr (hs2 ▸ hx2))
          · exact Or.inr ⟨s2, hs2, hc2, hx2⟩
      · simp only [Set.mem_union, Set.mem_setOf_eq, if_neg hc,
          Set.mem_empty_iff_false, or_false, List.mem_cons]
        constructor
        · rintro (h | h)
          · exact Or.inl h
          · obtain ⟨s2, hs2, hc2, hx2⟩ := h
            exact Or.inr ⟨s2, Or.inr hs2, hc2, hx2⟩
        · rintro (h | ⟨s2, hs2 | hs2, hc2, hx2⟩)
          · exact Or.inl h
          · exact absurd (hs2 ▸ hc2) hc
          · exact Or.inr ⟨s2, hs2, hc2, hx2⟩

/-- The value recorded for `c` in the transition map of one expansion is
exactly the code's target set for `(look, c)`. -/
theorem buildTmap_some_set {nfa : Nfa} {look : List Nat} {c : Char}
    {v : List Nat} (hv : assocFind (buildTmap nfa look) c = some v) :
    {x | x ∈ v} = codeTarget nfa look c := by
  have h := (lookFold_spec nfa look [] c).2 v hv
  rw [h]
  have hclos : ∀ s2 : Nat, {x | x ∈ closureList nfa
      (nfa.next_states s2 (some c) ++ nfa.next_states s2 none)} =
      epsReachSet nfa {x | x ∈ nfa.next_states s2 (some c) ++
        nfa.next_states s2 none} := fun s2 => closureList_eq_reach nfa _
  ext y
  simp only [Set.mem_union, Set.mem_setOf_eq, assocFind, codeTarget]
  constructor
  · rintro (⟨v0, h0, _⟩ | ⟨s2, hs2, hc2, hy⟩)
    · cases h0
    · refine ⟨s2, hs2, hc2, ?_⟩
      have : y ∈ {x | x ∈ closureList nfa
          (nfa.next_states s2 (some c) ++ nfa.next_states s2 none)} := hy
      rwa [hclos s2] at this
  · rintro ⟨s2, hs2, hc2, hy⟩
    refine Or.inr ⟨s2, hs2, hc2, ?_⟩
    have : y ∈ epsReachSet nfa {x | x ∈ nfa.next_states s2 (some c) ++
        nfa.next_states s2 none} := hy
    rw [← hclos s2] at this
    exact this

/-- The transition map has an entry for `c` exactly when some state of the
popped subset has a `c`-labelled transition. -/
theorem buildTmap_entry_iff (nfa : Nfa) (look : List Nat) (c : Char) :
    (∃ v, assocFind (buildTmap nfa look) c = some v) ↔
      ∃ s ∈ look, (some c) ∈ nfa.next_chars s := by
  have h : assocFind (buildTmap nfa look) c = none ↔
      (assocFind ([] : List (Char × List Nat)) c = none ∧
        ¬∃ s ∈ look, (some c) ∈ nfa.next_chars s) :=
    (lookFold_spec nfa look [] c).1
  constructor
  · rintro ⟨v, hv⟩
    by_contra hc
    have : assocFind (buildTmap nfa look) c = none := by
      rw [h]
      exact ⟨rfl, hc⟩
    rw [this] at hv
    cases hv
  · intro hc
    rcases hfind : assocFind (buildTmap nfa look) c with _ | v
    · rw [h] at hfind
      exact absurd hc hfind.2
    · exact ⟨v, rfl⟩

theorem get_state_mem_map (ctx : DfaContext) (l : List Nat) :
    (sortList l, (ctx.get_state l).1) ∈ (ctx.get_state l).2.state_map := by
  unfold DfaContext.get_state
  rcases h : assocFind ctx.state_map (sortList l) with _ | id
  · simp only [h]
    exact List.mem_append_right _ (List.mem_singleton_self _)
  · simp only [h]
    exact assocFind_mem h

theorem innerFold_keys_nodup (nfa : Nfa) (s : Nat) :
    ∀ (cs : List Char) (tm : List (Char × List Nat)),
      (tm.map Prod.fst).Nodup →
      (((cs.foldl (fun tm2 c => tmapExtend tm2 c
          (closureList nfa
            (nfa.next_states s (some c) ++ nfa.next_states s none))) tm)).map
        Prod.fst).Nodup := by
  intro cs
  induction cs with
  | nil => intro tm h; simpa using h
  | cons c cs ih =>
    intro tm h
    rw [List.foldl_cons]
    exact ih _ (tmapExtend_keys_nodup c _ h)

theorem buildTmap_keys_nodup (nfa : Nfa) (look : List Nat) :
    ((buildTmap nfa look).map Prod.fst).Nodup := by
  have hgen : ∀ (l : List Nat) (tm : List (Char × List Nat)),
      (tm.map Prod.fst).Nodup →
      ((l.foldl (fun tm3 s =>
          ((nfa.next_chars s).filterMap id).foldl (fun tm2 c =>
            tmapExtend tm2 c (closureList nfa
              (nfa.next_states s (some c) ++ nfa.next_states s none))) tm3)
          tm).map Prod.fst).Nodup := by
    intro l
    induction l with
    | nil => intro tm h; simpa using h
    | cons s l2 ih =>
      intro tm h
      rw [List.foldl_cons]
      exact ih _ (innerFold_keys_nodup nfa s _ tm h)
  exact hgen look [] (by simp)

theorem stepEntries_trans_preserved (v2 : Finset Nat) (form : Nat) :
    ∀ (entries : List (Char × List Nat)) (ctx : DfaContext)
      (pushed : List (List Nat)) (tr : List ((Nat × Char) × Nat)) (c : Char),
      c ∉ entries.map Prod.fst →
      assocFind (stepEntries v2 form entries ctx pushed tr).2.2 (form, c) =
        assocFind tr (form, c) := by
  intro entries
  induction entries with
  | nil => intro ctx pushed tr c _; rfl
  | cons e t ih =>
    intro ctx pushed tr c hc
    obtain ⟨c0, ns0⟩ := e
    simp only [List.map_cons, List.mem_cons, not_or] at hc
    rw [stepEntries]
    rw [ih _ _ _ _ hc.2]
    exact assocFind_mapInsert_other _ _ _
      (by simp only [ne_eq, Prod.mk.injEq]; rintro ⟨-, h⟩; exact hc.1 h) _

/-- Every entry of a duplicate-free transition map ends up recorded: the
final transition table maps `(form, c)` to the id the registrar gave the
entry's subset, and the registrar records that subset's sorted key under
that id. -/
theorem stepEntries_records (v2 : Finset Nat) (form : Nat) :
    ∀ (entries : List (Char × List Nat)) (ctx : DfaContext)
      (pushed : List (List Nat)) (tr : List ((Nat × Char) × Nat)),
      ((entries.map Prod.fst).Nodup) →
      ∀ (c : Char) (ns : List Nat), (c, ns) ∈ entries →
      ∃ t, assocFind (stepEntries v2 form entries ctx pushed tr).2.2
          (form, c) = some t ∧
        (sortList ns, t) ∈
          (stepEntries v2 form entries ctx pushed tr).1.state_map := by
  intro entries
  induction entries with
  | nil => intro _ _ _ _ _ _ h; cases h
  | cons e t ih =>
    intro ctx pushed tr hnodup c ns hmem
    obtain ⟨c0, ns0⟩ := e
    rw [List.map_cons, List.nodup_cons] at hnodup
    rcases List.mem_cons.1 hmem with h | h
    · rw [Prod.mk.injEq] at h
      obtain ⟨h1, h2⟩ := h
      subst h1
      subst h2
      rw [stepEntries]
      refine ⟨(ctx.get_state ns).1, ?_, ?_⟩
      · rw [stepEntries_trans_preserved _ _ _ _ _ _ _ hnodup.1]
        exact assocFind_mapInsert_self _ _ _
      · obtain ⟨suf, hsuf⟩ := stepEntries_map_mono v2 form t
          (ctx.get_state ns).2
          (if (ctx.get_state ns).1 ∈ v2 then pushed else ns :: pushed)
          (mapInsert tr (form, c) (ctx.get_state ns).1)
        rw [hsuf]
        exact List.mem_append_left _ (get_state_mem_map ctx ns)
    · rw [stepEntries]
      exact ih _ _ _ hnodup.2 c ns h

/-! ### C2: what the recorded transitions actually target -/

/-- C2 (amended): when the worklist loop expands a subset `look` and `c` is a
symbol with a labelled transition from some state of `look`, the transition
recorded for `(look, c)` targets the registrar identifier of the epsilon
closure of the union, over the states `s ∈ look` *that have a `c`-labelled
transition*, of the `c`-destinations of `s` **together with the epsilon
destinations of `s` itself** (`codeTarget`): the recorded target `t` is
registered in the final registrar under the sorted key of a list enumerating
exactly that set. -/
theorem c2_transition_records_code_target (nfa : Nfa) (st : DState)
    (look : List Nat) (rest : List (List Nat)) (c : Char)
    (hw : st.waiting = look :: rest)
    (hc : ∃ s ∈ look, (some c) ∈ nfa.next_chars s) :
    ∃ t v, assocFind (step nfa st).trans
        (((st.ctx.get_state look).2.get_state look).1, c) = some t ∧
      (sortList v, t) ∈ (step nfa st).ctx.state_map ∧
      {x | x ∈ v} = codeTarget nfa look c := by
  obtain ⟨v, hv⟩ := (buildTmap_entry_iff nfa look c).2 hc
  have hmem : (c, v) ∈ buildTmap nfa look := assocFind_mem hv
  obtain ⟨t, ht1, ht2⟩ := stepEntries_records
    (insert (st.ctx.get_state look).1 st.visited)
    (((st.ctx.get_state look).2.get_state look)).1
    (buildTmap nfa look)
    (((st.ctx.get_state look).2.get_state look)).2 [] st.trans
    (buildTmap_keys_nodup nfa look) c v hmem
  refine ⟨t, v, ?_, ?_, buildTmap_some_set hv⟩
  · show assocFind (step nfa st).trans _ = some t
    unfold step
    rw [hw]
    exact ht1
  · show (sortList v, t) ∈ (step nfa st).ctx.state_map
    unfold step
    rw [hw]
    exact ht2

theorem epsReach_nfaMix_one {y : Nat} (h : EpsReach nfaMix 1 y) : y = 1 := by
  induction h with
  | refl => rfl
  | tail _ hz ih =>
    subst ih
    cases hz

theorem specTarget_nfaMix : specTarget nfaMix [0, 2] 'a' = {1} := by
  have hA : {x | ∃ s ∈ [0, 2], x ∈ nfaMix.next_states s (some 'a')} =
      ({1} : Set Nat) := by
    ext x
    simp only [Set.mem_setOf_eq, Set.mem_singleton_iff]
    constructor
    · rintro ⟨s, hs, hx⟩
      simp only [List.mem_cons, List.not_mem_nil, or_false] at hs
      rcases hs with h | h
      · subst h
        have hx2 : x ∈ ([1] : List Nat) := hx
        simp only [List.mem_singleton] at hx2
        exact hx2
      · subst h
        have hx2 : x ∈ ([] : List Nat) := hx
        cases hx2
    · intro h
      refine ⟨0, by simp, ?_⟩
      show x ∈ ([1] : List Nat)
      rw [h]
      exact List.mem_singleton_self _
  unfold specTarget
  rw [hA]
  ext y
  simp only [Set.mem_singleton_iff]
  constructor
  · rintro ⟨x, hx, hr⟩
    rw [Set.mem_singleton_iff] at hx
    subst hx
    exact epsReach_nfaMix_one hr
  · intro h
    exact ⟨1, rfl, h ▸ EpsReach.refl _⟩

/-- C2 counterexample: on `nfaMix` (`0 → 1` on `a`, `0 → 2` on epsilon) the
expanded start subset is `{0, 2}`, and the transition recorded for it on `a`
targets the id registered for the subset `[1, 2]` — not the id of the
epsilon closure of the `a`-destinations, which is `{1}` and is never
registered at all (state `2`, an epsilon successor of the *source* state,
is folded into the target). -/
theorem c2_counterexample :
    startList nfaMix = [0, 2] ∧
    (Dfa.from_nfa nfaMix).next_state 0 'a' = some 1 ∧
    (determinize nfaMix).ctx.state_map = [([0, 2], 0), ([1, 2], 1)] ∧
    specTarget nfaMix [0, 2] 'a' = {1} ∧
    (∀ key id2, (key, id2) ∈ (determinize nfaMix).ctx.state_map →
      {x | x ∈ key} ≠ specTarget nfaMix [0, 2] 'a') := by
  refine ⟨by decide, by decide, by decide, specTarget_nfaMix, ?_⟩
  intro key id2 hmem
  have hmap : (determinize nfaMix).ctx.state_map =
      [([0, 2], 0), ([1, 2], 1)] := by decide
  rw [hmap] at hmem
  rw [specTarget_nfaMix]
  simp only [List.mem_cons, List.not_mem_nil, or_false] at hmem
  rcases hmem with h | h
  · rw [Prod.mk.injEq] at h
    rw [h.1]
    intro he
    have : (2 : Nat) ∈ ({1} : Set Nat) := by
      rw [← he]
      simp
    simp at this
  · rw [Prod.mk.injEq] at h
    rw [h.1]
    intro he
    have : (2 : Nat) ∈ ({1} : Set Nat) := by
      rw [← he]
      simp
    simp at this

/-- C2 witness for the amended theorem: on `nfaMix`, expanding the start
subset `[0, 2]` on symbol `a` records a transition whose target is registered
for a subset enumerating exactly `codeTarget nfaMix [0, 2] 'a'`. -/
theorem c2_witness :
    ((initState nfaMix).waiting = [0, 2] :: [] ∧
      ∃ s ∈ [0, 2], (some 'a') ∈ nfaMix.next_chars s) ∧
    ∃ t v, assocFind (step nfaMix (initState nfaMix)).trans
        ((((initState nfaMix).ctx.get_state [0, 2]).2.get_state [0, 2]).1,
          'a') = some t ∧
      (sortList v, t) ∈ (step nfaMix (initState nfaMix)).ctx.state_map ∧
      {x | x ∈ v} = codeTarget nfaMix [0, 2] 'a' :=
  ⟨⟨by decide, by decide⟩,
    c2_transition_records_code_target nfaMix (initState nfaMix) [0, 2] []
      'a' (by decide) (by decide)⟩

theorem stepEntries_pushed (v2 : Finset Nat) (form : Nat) :
    ∀ (entries : List (Char × List Nat)) (ctx : DfaContext)
      (pushed0 : List (List Nat)) (tr : List ((Nat × Char) × Nat)),
      (∀ p ∈ pushed0, ∃ i, (sortList p, i) ∈ ctx.state_map ∧ i ∉ v2) →
      ∀ p ∈ (stepEntries v2 form entries ctx pushed0 tr).2.1,
        ∃ i, (sortList p, i) ∈
            (stepEntries v2 form entries ctx pushed0 tr).1.state_map ∧
          i ∉ v2 := by
  intro entries
  induction entries with
  | nil => intro ctx pushed0 tr h p hp; exact h p hp
  | cons e t ih =>
    intro ctx pushed0 tr h p hp
    obtain ⟨c, ns⟩ := e
    rw [stepEntries] at hp ⊢
    refine ih _ _ _ ?_ p hp
    intro q hq
    by_cases hv : (ctx.get_state ns).1 ∈ v2
    · rw [if_pos hv] at hq
      obtain ⟨i, hi1, hi2⟩ := h q hq
      obtain ⟨suf, hsuf⟩ := get_state_map_mono ctx ns
      exact ⟨i, by rw [hsuf]; exact List.mem_append_left _ hi1, hi2⟩
    · rw [if_neg hv] at hq
      rcases List.mem_cons.1 hq with h2 | h2
      · subst h2
        exact ⟨(ctx.get_state q).1, get_state_mem_map ctx q, hv⟩
      · obtain ⟨i, hi1, hi2⟩ := h q h2
        obtain ⟨suf, hsuf⟩ := get_state_map_mono ctx ns
        exact ⟨i, by rw [hsuf]; exact List.mem_append_left _ hi1, hi2⟩

/-! ### C4: there is no already-visited guard on pop -/

/-- C4 (amended): the worklist loop never discards a popped subset — every
popped subset is expanded, whether or not its DfaState is already visited
(the conclusion holds with no assumption on `st.visited`); the visited set
only guards *enqueueing*: every subset pushed by an expansion has a
registrar id that is not in the updated visited set. -/
theorem c4_no_pop_guard (nfa : Nfa) (st : DState) (look : List Nat)
    (rest : List (List Nat)) (hw : st.waiting = look :: rest) :
    (∀ c, (∃ s ∈ look, (some c) ∈ nfa.next_chars s) →
      ∃ t, assocFind (step nfa st).trans
        (((st.ctx.get_state look).2.get_state look).1, c) = some t) ∧
    (∃ pushed, (step nfa st).waiting = pushed ++ rest ∧
      ∀ p ∈ pushed, ∃ i, (sortList p, i) ∈ (step nfa st).ctx.state_map ∧
        i ∉ (step nfa st).visited) := by
  constructor
  · intro c hc
    obtain ⟨v, hv⟩ := (buildTmap_entry_iff nfa look c).2 hc
    have hmem : (c, v) ∈ buildTmap nfa look := assocFind_mem hv
    obtain ⟨t, ht1, _⟩ := stepEntries_records
      (insert (st.ctx.get_state look).1 st.visited)
      (((st.ctx.get_state look).2.get_state look)).1
      (buildTmap nfa look)
      (((st.ctx.get_state look).2.get_state look)).2 [] st.trans
      (buildTmap_keys_nodup nfa look) c v hmem
    refine ⟨t, ?_⟩
    show assocFind (step nfa st).trans _ = some t
    unfold step
    rw [hw]
    exact ht1
  · refine ⟨(stepEntries (insert (st.ctx.get_state look).1 st.visited)
      (((st.ctx.get_state look).2.get_state look)).1
      (buildTmap nfa look)
      (((st.ctx.get_state look).2.get_state look)).2 [] st.trans).2.1,
      ?_, ?_⟩
    · show (step nfa st).waiting = _
      unfold step
      rw [hw]
    · intro p hp
      have h := stepEntries_pushed
        (insert (st.ctx.get_state look).1 st.visited)
        (((st.ctx.get_state look).2.get_state look)).1
        (buildTmap nfa look)
        (((st.ctx.get_state look).2.get_state look)).2 [] st.trans
        (by intro q hq; cases hq) p hp
      obtain ⟨i, hi1, hi2⟩ := h
      refine ⟨i, ?_, ?_⟩
      · show (sortList p, i) ∈ (step nfa st).ctx.state_map
        unfold step
        rw [hw]
        exact hi1
      · show i ∉ (step nfa st).visited
        unfold step
        rw [hw]
        exact hi2

/-- C4 counterexample: on `nfaDouble` (two labelled edges `0 → 1`, on `a`
and on `b`) the subset `[1]` is enqueued twice before being popped, and the
worklist loop pops — and therefore expands — the subset of DfaState 1
twice.  The claimed already-visited discard does not happen. -/
theorem c4_counterexample :
    popTrace nfaDouble (mainFuel nfaDouble) (initState nfaDouble) =
      [[0], [1], [1]] ∧
    (determinize nfaDouble).ctx.state_map = [([0], 0), ([1], 1)] := by
  constructor <;> decide

/-- C4 witness: the amended theorem instantiated at the expansion of the
start subset of `nfaDouble`: both recorded transitions exist and every
pushed subset is unvisited. -/
theorem c4_witness :
    ((initState nfaDouble).waiting = [0] :: []) ∧
    ((∀ c, (∃ s ∈ [0], (some c) ∈ nfaDouble.next_chars s) →
      ∃ t, assocFind (step nfaDouble (initState nfaDouble)).trans
        ((((initState nfaDouble).ctx.get_state [0]).2.get_state [0]).1, c) =
          some t) ∧
    (∃ pushed, (step nfaDouble (initState nfaDouble)).waiting = pushed ++ [] ∧
      ∀ p ∈ pushed, ∃ i,
        (sortList p, i) ∈ (step nfaDouble (initState nfaDouble)).ctx.state_map ∧
        i ∉ (step nfaDouble (initState nfaDouble)).visited)) :=
  ⟨by decide, c4_no_pop_guard nfaDouble (initState nfaDouble) [0] [] (by decide)⟩

/-! ### C3: determinization is not order-independent -/

theorem nfaDup_equiv : NfaSetEquiv nfaDupA nfaDupB := by
  refine ⟨rfl, rfl, ?_, ?_⟩
  · intro s c
    by_cases h0 : s = 0
    · subst h0; rfl
    by_cases h1 : s = 1
    · subst h1; rfl
    by_cases h2 : s = 2
    · subst h2
      by_cases hc : c = none
      · subst hc; decide
      · have hA : nfaDupA.next_states 2 c = [] := by
          simp [Nfa.next_states, nfaDupA, assocFind, hc]
        have hB : nfaDupB.next_states 2 c = [] := by
          simp [Nfa.next_states, nfaDupB, assocFind, hc]
        rw [hA, hB]
    by_cases h4 : s = 4
    · subst h4; rfl
    · have hA : nfaDupA.next_states s c = [] := by
        simp [Nfa.next_states, nfaDupA, assocFind, h0, h1, h2, h4]
      have hB : nfaDupB.next_states s c = [] := by
        simp [Nfa.next_states, nfaDupB, assocFind, h0, h1, h2, h4]
      rw [hA, hB]
  · intro s
    by_cases h0 : s = 0
    · subst h0; rfl
    by_cases h1 : s = 1
    · subst h1; rfl
    by_cases h2 : s = 2
    · subst h2; rfl
    by_cases h4 : s = 4
    · subst h4; rfl
    · have hA : nfaDupA.next_chars s = [] := by
        simp [Nfa.next_chars, nfaDupA, assocFind, h0, h1, h2, h4]
      have hB : nfaDupB.next_chars s = [] := by
        simp [Nfa.next_chars, nfaDupB, assocFind, h0, h1, h2, h4]
      rw [hA, hB]

/-- C3 counterexample: `nfaDupA` and `nfaDupB` are the same abstract NFA —
only the hash-iteration order of the epsilon successors of state `2`
differs — yet `Dfa::from_nfa` produces non-isomorphic DFAs: run A yields two
reachable states (`0 → 1 → 1` on `x`), run B a single state with a self
loop, because the start traversal of run A records the start set with a
duplicated entry (`[0,2,4,3,3,1]`) and the sorted-but-not-deduplicated
registrar key then differs from the deduplicated set reached through the
`x` transition. -/
theorem c3_counterexample :
    NfaSetEquiv nfaDupA nfaDupB ∧
    ¬ DfaIso (Dfa.from_nfa nfaDupA) (Dfa.from_nfa nfaDupB) := by
  refine ⟨nfaDup_equiv, ?_⟩
  rintro ⟨f, hstart, hacc, htrans, hinj, hsurj⟩
  have hAstart : (Dfa.from_nfa nfaDupA).start = 0 := by decide
  have hBstart : (Dfa.from_nfa nfaDupB).start = 0 := by decide
  have hA01 : (Dfa.from_nfa nfaDupA).next_state 0 'x' = some 1 := by decide
  have hB00 : (Dfa.from_nfa nfaDupB).next_state 0 'x' = some 0 := by decide
  have hr0 : DfaReach (Dfa.from_nfa nfaDupA) 0 := hAstart ▸ DfaReach.start
  have hr1 : DfaReach (Dfa.from_nfa nfaDupA) 1 := DfaReach.step hr0 hA01
  rw [hAstart] at hstart
  rw [hBstart] at hstart
  have ht := htrans 0 'x' hr0
  rw [hstart, hB00, hA01] at ht
  simp only [Option.map_some'] at ht
  have hf1 : f 1 = 0 := by
    injection ht with h
    exact h.symm
  exact absurd (hinj 0 1 hr0 hr1 (by rw [hstart, hf1])) (by decide)

/-! ### Semantics of the `nfa.rs` transition helpers -/

theorem assocFind_insertRow_self (c : Option Char) (dst : Nat) :
    ∀ row : List (Option Char × List Nat),
      assocFind (insertRow row c dst) c =
        some (match assocFind row c with
              | some v => if dst ∈ v then v else v ++ [dst]
              | none => [dst]) := by
  intro row
  induction row with
  | nil => simp [insertRow, assocFind]
  | cons e t ih =>
    obtain ⟨k, v⟩ := e
    by_cases hk : c = k
    · subst hk
      simp [insertRow, assocFind]
    · simp only [insertRow, if_neg hk, assocFind, if_neg hk]
      exact ih

theorem assocFind_insertRow_other (c : Option Char) (dst : Nat) (c' : Option Char)
    (h : c' ≠ c) :
    ∀ row : List (Option Char × List Nat),
      assocFind (insertRow row c dst) c' = assocFind row c' := by
  intro row
  induction row with
  | nil => simp [insertRow, assocFind, h]
  | cons e t ih =>
    obtain ⟨k, v⟩ := e
    by_cases hk : c = k
    · subst hk
      simp only [insertRow, if_pos rfl, assocFind, if_neg h]
    · simp only [insertRow, if_neg hk, assocFind]
      by_cases hk2 : c' = k
      · simp [hk2]
      · simp only [if_neg hk2]
        exact ih

theorem assocFind_insertTable_self (f : Nat) (c : Option Char) (dst : Nat) :
    ∀ trs : List (Nat × List (Option Char × List Nat)),
      assocFind (insertTable trs f c dst) f =
        some (match assocFind trs f with
              | some row => insertRow row c dst
              | none => [(c, [dst])]) := by
  intro trs
  induction trs with
  | nil => simp [insertTable, assocFind]
  | cons e t ih =>
    obtain ⟨k, row⟩ := e
    by_cases hk : f = k
    · subst hk
      simp [insertTable, assocFind]
    · simp only [insertTable, if_neg hk, assocFind, if_neg hk]
      exact ih

theorem assocFind_insertTable_other (f : Nat) (c : Option Char) (dst : Nat)
    (s : Nat) (h : s ≠ f) :
    ∀ trs : List (Nat × List (Option Char × List Nat)),
      assocFind (insertTable trs f c dst) s = assocFind trs s := by
  intro trs
  induction trs with
  | nil => simp [insertTable, assocFind, h]
  | cons e t ih =>
    obtain ⟨k, row⟩ := e
    by_cases hk : f = k
    · subst hk
      simp only [insertTable, if_pos rfl, assocFind, if_neg h]
    · simp only [insertTable, if_neg hk, assocFind]
      by_cases hk2 : s = k
      · simp [hk2]
      · simp only [if_neg hk2]
        exact ih

/-- What one `_insert_transition` adds to the `next_states` relation. -/
theorem next_states_insert (nfa : Nfa) (f dst : Nat) (c : Option Char)
    (s : Nat) (c' : Option Char) (t : Nat) :
    t ∈ (nfa.insert_transition f dst c).next_states s c' ↔
      (t ∈ nfa.next_states s c' ∨ (s = f ∧ c' = c ∧ t = dst)) := by
  unfold Nfa.insert_transition Nfa.next_states
  by_cases hs : s = f
  · subst hs
    rw [assocFind_insertTable_self]
    rcases htab : assocFind nfa.transitions s with _ | row
    · dsimp only
      by_cases hc : c' = c
      · subst hc
        have h2 : assocFind [(c', [dst])] c' = some [dst] := by
          simp [assocFind]
        simp only [h2]
        simp
      · have h2 : assocFind [(c, [dst])] c' = none := by
          simp [assocFind, hc]
        simp only [h2]
        simp [hc]
    · dsimp only
      by_cases hc : c' = c
      · subst hc
        rw [assocFind_insertRow_self]
        rcases hrow : assocFind row c' with _ | v
        · simp only
          simp [List.mem_singleton]
        · simp only
          by_cases hd : dst ∈ v
          · rw [if_pos hd]
            simp only [List.mem_append, List.mem_singleton, and_true,
              true_and]
            constructor
            · intro h
              exact Or.inl h
            · rintro (h | h)
              · exact h
              · exact h ▸ hd
          · rw [if_neg hd]
            simp [List.mem_append, List.mem_singleton]
      · rw [assocFind_insertRow_other _ _ _ hc]
        simp [hc]
  · rw [assocFind_insertTable_other _ _ _ _ hs]
    simp [hs]

/-- Folding a list of epsilon edges `a → dst` (as the `Star`/`Concat`
constructions do) adds exactly those edges. -/
theorem next_states_fold_empty (dst : Nat) :
    ∀ (l : List Nat) (nfa : Nfa) (s : Nat) (c' : Option Char) (t : Nat),
      t ∈ (l.foldl (fun acc a => acc.add_empty_transition a dst) nfa).next_states
          s c' ↔
        (t ∈ nfa.next_states s c' ∨ (s ∈ l ∧ c' = none ∧ t = dst)) := by
  intro l
  induction l with
  | nil => intro nfa s c' t; simp
  | cons a l2 ih =>
    intro nfa s c' t
    rw [List.foldl_cons, ih]
    unfold Nfa.add_empty_transition
    rw [next_states_insert]
    simp only [List.mem_cons]
    constructor
    · rintro ((h | ⟨h1, h2, h3⟩) | ⟨h1, h2, h3⟩)
      · exact Or.inl h
      · exact Or.inr ⟨Or.inl h1, h2, h3⟩
      · exact Or.inr ⟨Or.inr h1, h2, h3⟩
    · rintro (h | ⟨h1 | h1, h2, h3⟩)
      · exact Or.inl (Or.inl h)
      · exact Or.inl (Or.inr ⟨h1, h2, h3⟩)
      · exact Or.inr ⟨h1, h2, h3⟩

theorem accepts_insert (nfa : Nfa) (f dst : Nat) (c : Option Char) :
    (nfa.insert_transition f dst c).accepts = nfa.accepts := rfl

theorem accepts_fold_empty (dst : Nat) :
    ∀ (l : List Nat) (nfa : Nfa),
      (l.foldl (fun acc a => acc.add_empty_transition a dst) nfa).accepts =
        nfa.accepts := by
  intro l
  induction l with
  | nil => intro nfa; rfl
  | cons a l2 ih =>
    intro nfa
    rw [List.foldl_cons, ih]
    rfl

theorem start_insert (nfa : Nfa) (f dst : Nat) (c : Option Char) :
    (nfa.insert_transition f dst c).start = nfa.start := rfl

theorem start_fold_empty (dst : Nat) :
    ∀ (l : List Nat) (nfa : Nfa),
      (l.foldl (fun acc a => acc.add_empty_transition a dst) nfa).start =
        nfa.start := by
  intro l
  induction l with
  | nil => intro nfa; rfl
  | cons a l2 ih =>
    intro nfa
    rw [List.foldl_cons, ih]
    rfl

/-! ### Semantics of `merge_transition` -/

theorem next_states_mk (st ac st2 ac2 : _) (trs : List (Nat × List (Option Char × List Nat)))
    (s : Nat) (c : Option Char) :
    (Nfa.mk st ac trs).next_states s c = (Nfa.mk st2 ac2 trs).next_states s c :=
  rfl

theorem assocFind_of_mem_nodup {α β : Type} [DecidableEq α] :
    ∀ {l : List (α × β)} {k : α} {v : β},
      (l.map Prod.fst).Nodup → (k, v) ∈ l → assocFind l k = some v := by
  intro l
  induction l with
  | nil => intro k v _ h; cases h
  | cons e t ih =>
    intro k v hnodup hmem
    obtain ⟨k0, v0⟩ := e
    rw [List.map_cons, List.nodup_cons] at hnodup
    rcases List.mem_cons.1 hmem with h | h
    · rw [Prod.mk.injEq] at h
      obtain ⟨h1, h2⟩ := h
      subst h1
      subst h2
      simp [assocFind]
    · have hk : k ≠ k0 := by
        intro he
        subst he
        exact hnodup.1 (List.mem_map.2 ⟨(k, v), h, rfl⟩)
      simp only [assocFind, if_neg hk]
      exact ih hnodup.2 h

/-- Under the HashMap well-formedness invariant, `next_states` membership is
membership in the raw relation. -/
theorem next_states_iff_memRel {nfa : Nfa} (h : NfaWF nfa) (s : Nat)
    (c : Option Char) (t : Nat) :
    t ∈ nfa.next_states s c ↔ MemRel nfa.transitions s c t := by
  constructor
  · intro ht
    rcases h1 : assocFind nfa.transitions s with _ | table
    · simp [Nfa.next_states, h1] at ht
    · rcases h2 : assocFind table c with _ | dsts
      · simp [Nfa.next_states, h1, h2] at ht
      · simp only [Nfa.next_states, h1, h2] at ht
        exact ⟨(s, table), assocFind_mem h1, rfl,
          (c, dsts), assocFind_mem h2, rfl, ht⟩
  · rintro ⟨e, he, h1, p, hp, h2, ht⟩
    obtain ⟨s2, table⟩ := e
    obtain ⟨c2, dsts⟩ := p
    dsimp only at h1 h2 ht hp
    subst h1
    subst h2
    unfold Nfa.next_states
    rw [assocFind_of_mem_nodup h.1 he]
    dsimp only
    have hrow := h.2 (s2, table) he
    dsimp only at hrow
    rw [assocFind_of_mem_nodup hrow hp]
    exact ht

theorem fold_dsts_next (f : Nat) (c : Option Char) :
    ∀ (ts : List Nat) (acc : List (Nat × List (Option Char × List Nat)))
      (st ac : _) (s : Nat) (c' : Option Char) (t : Nat),
      t ∈ (Nfa.mk st ac (ts.foldl (fun a3 u => insertTable a3 f c u)
          acc)).next_states s c' ↔
        (t ∈ (Nfa.mk st ac acc).next_states s c' ∨
          (s = f ∧ c' = c ∧ t ∈ ts)) := by
  intro ts
  induction ts with
  | nil => intro acc st ac s c' t; simp
  | cons u ts2 ih =>
    intro acc st ac s c' t
    rw [List.foldl_cons, ih]
    have hstep : ∀ t2, t2 ∈ (Nfa.mk st ac (insertTable acc f c u)).next_states
        s c' ↔ (t2 ∈ (Nfa.mk st ac acc).next_states s c' ∨
          (s = f ∧ c' = c ∧ t2 = u)) := fun t2 =>
      next_states_insert (Nfa.mk st ac acc) f u c s c' t2
    rw [hstep]
    simp only [List.mem_cons]
    constructor
    · rintro ((h | ⟨h1, h2, h3⟩) | ⟨h1, h2, h3⟩)
      · exact Or.inl h
      · exact Or.inr ⟨h1, h2, Or.inl h3⟩
      · exact Or.inr ⟨h1, h2, Or.inr h3⟩
    · rintro (h | ⟨h1, h2, h3 | h3⟩)
      · exact Or.inl (Or.inl h)
      · exact Or.inl (Or.inr ⟨h1, h2, h3⟩)
      · exact Or.inr ⟨h1, h2, h3⟩

theorem fold_row_next (f : Nat) :
    ∀ (row : List (Option Char × List Nat))
      (acc : List (Nat × List (Option Char × List Nat)))
      (st ac : _) (s : Nat) (c' : Option Char) (t : Nat),
      t ∈ (Nfa.mk st ac (row.foldl (fun a2 p =>
          p.2.foldl (fun a3 u => insertTable a3 f p.1 u) a2)
          acc)).next_states s c' ↔
        (t ∈ (Nfa.mk st ac acc).next_states s c' ∨
          (s = f ∧ ∃ p ∈ row, p.1 = c' ∧ t ∈ p.2)) := by
  intro row
  induction row with
  | nil => intro acc st ac s c' t; simp
  | cons p row2 ih =>
    intro acc st ac s c' t
    rw [List.foldl_cons, ih, fold_dsts_next]
    simp only [List.mem_cons]
    constructor
    · rintro ((h | ⟨h1, h2, h3⟩) | ⟨h1, p2, hp2, h2, h3⟩)
      · exact Or.inl h
      · exact Or.inr ⟨h1, p, Or.inl rfl, h2.symm, h3⟩
      · exact Or.inr ⟨h1, p2, Or.inr hp2, h2, h3⟩
    · rintro (h | ⟨h1, p2, hp2 | hp2, h2, h3⟩)
      · exact Or.inl (Or.inl h)
      · subst hp2
        exact Or.inl (Or.inr ⟨h1, h2.symm, h3⟩)
      · exact Or.inr ⟨h1, p2, hp2, h2, h3⟩

theorem fold_table_next :
    ∀ (l : List (Nat × List (Option Char × List Nat)))
      (acc : List (Nat × List (Option Char × List Nat)))
      (st ac : _) (s : Nat) (c' : Option Char) (t : Nat),
      t ∈ (Nfa.mk st ac (l.foldl (fun a e =>
          e.2.foldl (fun a2 p =>
            p.2.foldl (fun a3 u => insertTable a3 e.1 p.1 u) a2) a)
          acc)).next_states s c' ↔
        (t ∈ (Nfa.mk st ac acc).next_states s c' ∨ MemRel l s c' t) := by
  intro l
  induction l with
  | nil => intro acc st ac s c' t; simp [MemRel]
  | cons e l2 ih =>
    intro acc st ac s c' t
    rw [List.foldl_cons, ih, fold_row_next]
    unfold MemRel
    simp only [List.mem_cons]
    constructor
    · rintro ((h | ⟨h1, p, hp, h2, h3⟩) | ⟨e2, he2, h1, p, hp, h2, h3⟩)
      · exact Or.inl h
      · exact Or.inr ⟨e, Or.inl rfl, h1.symm, p, hp, h2, h3⟩
      · exact Or.inr ⟨e2, Or.inr he2, h1, p, hp, h2, h3⟩
    · rintro (h | ⟨e2, he2 | he2, h1, p, hp, h2, h3⟩)
      · exact Or.inl (Or.inl h)
      · subst he2
        exact Or.inl (Or.inr ⟨h1.symm, p, hp, h2, h3⟩)
      · exact Or.inr ⟨e2, he2, h1, p, hp, h2, h3⟩

/-- `merge_transition` adds exactly the raw relation of `other`. -/
theorem next_states_merge (nfa other : Nfa) (s : Nat) (c : Option Char)
    (t : Nat) :
    t ∈ (nfa.merge_transition other).next_states s c ↔
      (t ∈ nfa.next_states s c ∨ MemRel other.transitions s c t) := by
  have h := fold_table_next other.transitions nfa.transitions nfa.start
    nfa.accepts s c t
  exact h

/-! ### Well-formedness (unique HashMap keys) of assembled NFAs -/

theorem insertRow_keys (c : Option Char) (dst : Nat) :
    ∀ row : List (Option Char × List Nat),
      (insertRow row c dst).map Prod.fst =
        if c ∈ row.map Prod.fst then row.map Prod.fst
        else row.map Prod.fst ++ [c] := by
  intro row
  induction row with
  | nil => simp [insertRow]
  | cons e t ih =>
    obtain ⟨k, v⟩ := e
    by_cases hk : c = k
    · subst hk
      simp [insertRow]
    · simp only [insertRow, if_neg hk, List.map_cons]
      rw [ih]
      by_cases hmem : c ∈ t.map Prod.fst
      · rw [if_pos hmem, if_pos]
        simp [hmem]
      · rw [if_neg hmem, if_neg]
        · simp
        · simp only [List.mem_cons]
          push_neg
          exact ⟨fun he => hk (by simpa using he), hmem⟩

theorem insertRow_keys_nodup {row : List (Option Char × List Nat)}
    (c : Option Char) (dst : Nat) (h : (row.map Prod.fst).Nodup) :
    ((insertRow row c dst).map Prod.fst).Nodup := by
  rw [insertRow_keys]
  by_cases hmem : c ∈ row.map Prod.fst
  · rwa [if_pos hmem]
  · rw [if_neg hmem, List.nodup_append]
    refine ⟨h, List.nodup_singleton c, ?_⟩
    intro x hx
    simp only [List.mem_singleton]
    intro he
    exact hmem (he ▸ hx)

theorem insertTable_keys (f : Nat) (c : Option Char) (dst : Nat) :
    ∀ trs : List (Nat × List (Option Char × List Nat)),
      (insertTable trs f c dst).map Prod.fst =
        if f ∈ trs.map Prod.fst then trs.map Prod.fst
        else trs.map Prod.fst ++ [f] := by
  intro trs
  induction trs with
  | nil => simp [insertTable]
  | cons e t ih =>
    obtain ⟨k, row⟩ := e
    by_cases hk : f = k
    · subst hk
      simp [insertTable]
    · simp only [insertTable, if_neg hk, List.map_cons]
      rw [ih]
      by_cases hmem : f ∈ t.map Prod.fst
      · rw [if_pos hmem, if_pos]
        simp [hmem]
      · rw [if_neg hmem, if_neg]
        · simp
        · simp only [List.mem_cons]
          push_neg
          exact ⟨fun he => hk (by simpa using he), hmem⟩

theorem insertTable_rows {trs : List (Nat × List (Option Char × List Nat))}
    (f : Nat) (c : Option Char) (dst : Nat)
    (h : ∀ e ∈ trs, (e.2.map Prod.fst).Nodup) :
    ∀ e ∈ insertTable trs f c dst, (e.2.map Prod.fst).Nodup := by
  induction trs with
  | nil =>
    intro e he
    rcases List.mem_cons.1 he with h2 | h2
    · subst h2
      simp
    · cases h2
  | cons e0 t ih =>
    obtain ⟨k, row⟩ := e0
    intro e he
    by_cases hk : f = k
    · subst hk
      rw [insertTable] at he
      rw [if_pos rfl] at he
      rcases List.mem_cons.1 he with h2 | h2
      · subst h2
        exact insertRow_keys_nodup c dst
          (by simpa using h (f, row) (List.mem_cons_self _ _))
      · exact h e (List.mem_cons_of_mem _ h2)
    · rw [insertTable] at he
      rw [if_neg hk] at he
      rcases List.mem_cons.1 he with h2 | h2
      · subst h2
        exact h (k, row) (List.mem_cons_self _ _)
      · exact ih (fun e2 he2 => h e2 (List.mem_cons_of_mem _ he2)) e h2

theorem WF_insert {nfa : Nfa} (f dst : Nat) (c : Option Char)
    (h : NfaWF nfa) : NfaWF (nfa.insert_transition f dst c) := by
  obtain ⟨h1, h2⟩ := h
  constructor
  · show ((insertTable nfa.transitions f c dst).map Prod.fst).Nodup
    rw [insertTable_keys]
    by_cases hmem : f ∈ nfa.transitions.map Prod.fst
    · rwa [if_pos hmem]
    · rw [if_neg hmem, List.nodup_append]
      refine ⟨h1, List.nodup_singleton f, ?_⟩
      intro x hx
      simp only [List.mem_singleton]
      intro he
      exact hmem (he ▸ hx)
  · exact insertTable_rows f c dst h2

theorem WF_fold_empty (dst : Nat) :
    ∀ (l : List Nat) (nfa : Nfa), NfaWF nfa →
      NfaWF (l.foldl (fun acc a => acc.add_empty_transition a dst) nfa) := by
  intro l
  induction l with
  | nil => intro nfa h; exact h
  | cons a l2 ih =>
    intro nfa h
    rw [List.foldl_cons]
    exact ih _ (WF_insert a dst none h)

theorem WF_mk_insertTable {trs : List (Nat × List (Option Char × List Nat))}
    (f : Nat) (c : Option Char) (dst : Nat)
    (h : NfaWF (Nfa.mk 0 [] trs)) :
    NfaWF (Nfa.mk 0 [] (insertTable trs f c dst)) :=
  @WF_insert (Nfa.mk 0 [] trs) f dst c h

theorem WF_fold_dsts (f : Nat) (c : Option Char) :
    ∀ (ts : List Nat) (acc : List (Nat × List (Option Char × List Nat))),
      NfaWF (Nfa.mk 0 [] acc) →
      NfaWF (Nfa.mk 0 []
        (ts.foldl (fun a3 u => insertTable a3 f c u) acc)) := by
  intro ts
  induction ts with
  | nil => intro acc h; exact h
  | cons u ts2 ih =>
    intro acc h
    rw [List.foldl_cons]
    exact ih _ (WF_mk_insertTable f c u h)

theorem WF_fold_row (f : Nat) :
    ∀ (row : List (Option Char × List Nat))
      (acc : List (Nat × List (Option Char × List Nat))),
      NfaWF (Nfa.mk 0 [] acc) →
      NfaWF (Nfa.mk 0 [] (row.foldl (fun a2 p =>
        p.2.foldl (fun a3 u => insertTable a3 f p.1 u) a2) acc)) := by
  intro row
  induction row with
  | nil => intro acc h; exact h
  | cons p row2 ih =>
    intro acc h
    rw [List.foldl_cons]
    exact ih _ (WF_fold_dsts f p.1 p.2 acc h)

theorem WF_merge {nfa : Nfa} (other : Nfa) (h : NfaWF nfa) :
    NfaWF (nfa.merge_transition other) := by
  have hgen : ∀ (l : List (Nat × List (Option Char × List Nat)))
      (acc : List (Nat × List (Option Char × List Nat))),
      NfaWF (Nfa.mk 0 [] acc) →
      NfaWF (Nfa.mk 0 [] (l.foldl (fun a e =>
        e.2.foldl (fun a2 p =>
          p.2.foldl (fun a3 u => insertTable a3 e.1 p.1 u) a2) a) acc)) := by
    intro l
    induction l with
    | nil => intro acc h2; exact h2
    | cons e l2 ih =>
      intro acc h2
      rw [List.foldl_cons]
      exact ih _ (WF_fold_row e.1 e.2 acc h2)
  exact hgen other.transitions nfa.transitions h

theorem WF_new (st : Nat) (ac : List Nat) : NfaWF (Nfa.new st ac) := by
  constructor
  · simp [Nfa.new]
  · intro e he
    cases he

/-- Every assembled fragment satisfies the HashMap key invariant. -/
theorem assemble_WF : ∀ (n : Node) (ctx : NfaContext),
    NfaWF (n.assemble ctx).1 := by
  intro n
  induction n with
  | Character c =>
    intro ctx
    exact WF_insert _ _ _ (WF_new _ _)
  | Empty =>
    intro ctx
    exact WF_insert _ _ _ (WF_new _ _)
  | Star inner ih =>
    intro ctx
    exact WF_fold_empty _ _ _
      (WF_insert _ _ _ (WF_merge _ (WF_new _ _)))
  | Union a b iha ihb =>
    intro ctx
    exact WF_insert _ _ _
      (WF_insert _ _ _ (WF_merge _ (WF_merge _ (WF_new _ _))))
  | Concat a b iha ihb =>
    intro ctx
    exact WF_fold_empty _ _ _ (WF_merge _ (WF_merge _ (WF_new _ _)))

/-! ### C8: the `Star` construction -/

/-- C8 (spec-modelled): assembling `Star inner` allocates exactly one fresh
state `s0`, keeps the accept set `{s0} ∪ inner.accepts`, preserves every
transition of the inner fragment and adds exactly the epsilon edges
`s0 → inner.start` and `a → inner.start` for every inner accept state `a`. -/
theorem c8_star_construction (inner : Node) (ctx : NfaContext) :
    ((Node.Star inner).assemble ctx).2.state_count =
      (inner.assemble ctx).2.state_count + 1 ∧
    ((Node.Star inner).assemble ctx).1.accepts =
      (inner.assemble ctx).2.state_count :: (inner.assemble ctx).1.accepts ∧
    (∀ s c t, t ∈ ((Node.Star inner).assemble ctx).1.next_states s c ↔
      (t ∈ (inner.assemble ctx).1.next_states s c ∨
        (s = (inner.assemble ctx).2.state_count ∧ c = none ∧
          t = (inner.assemble ctx).1.start) ∨
        (s ∈ (inner.assemble ctx).1.accepts ∧ c = none ∧
          t = (inner.assemble ctx).1.start))) := by
  refine ⟨rfl, ?_, ?_⟩
  · show (((inner.assemble ctx).1.accepts).foldl
        (fun acc a => acc.add_empty_transition a
          (inner.assemble ctx).1.start)
        (((Nfa.new (inner.assemble ctx).2.state_count
            ((inner.assemble ctx).2.state_count ::
              (inner.assemble ctx).1.accepts)).merge_transition
          (inner.assemble ctx).1).add_empty_transition
            (inner.assemble ctx).2.state_count
            (inner.assemble ctx).1.start)).accepts = _
    rw [accepts_fold_empty]
    rfl
  · intro s c t
    show t ∈ (((inner.assemble ctx).1.accepts).foldl
        (fun acc a => acc.add_empty_transition a
          (inner.assemble ctx).1.start)
        (((Nfa.new (inner.assemble ctx).2.state_count
            ((inner.assemble ctx).2.state_count ::
              (inner.assemble ctx).1.accepts)).merge_transition
          (inner.assemble ctx).1).add_empty_transition
            (inner.assemble ctx).2.state_count
            (inner.assemble ctx).1.start)).next_states s c ↔ _
    rw [next_states_fold_empty]
    unfold Nfa.add_empty_transition
    rw [next_states_insert]
    rw [next_states_merge]
    rw [← next_states_iff_memRel (assemble_WF inner ctx)]
    have hnew : ∀ t2, t2 ∈ (Nfa.new (inner.assemble ctx).2.state_count
        ((inner.assemble ctx).2.state_count ::
          (inner.assemble ctx).1.accepts)).next_states s c ↔ False := by
      intro t2
      simp [Nfa.new, Nfa.next_states, assocFind]
    rw [hnew]
    tauto

/-! ### Termination of the worklist loop: context bookkeeping -/

theorem assocFind_none_iff {α β : Type} [DecidableEq α]
    {l : List (α × β)} {k : α} :
    assocFind l k = none ↔ k ∉ l.map Prod.fst := by
  induction l with
  | nil => simp [assocFind]
  | cons e t ih =>
    obtain ⟨k0, v0⟩ := e
    by_cases hk : k = k0
    · subst hk
      simp [assocFind]
    · simp only [assocFind, if_neg hk, List.map_cons, List.mem_cons]
      rw [ih]
      simp [hk]

theorem get_state_hit {ctx : DfaContext} {l : List Nat} {i : Nat}
    (hnodup : (ctx.state_map.map Prod.fst).Nodup)
    (hmem : (sortList l, i) ∈ ctx.state_map) :
    ctx.get_state l = (i, ctx) := by
  unfold DfaContext.get_state
  dsimp only
  rw [assocFind_of_mem_nodup hnodup hmem]

theorem sortList_sorted (l : List Nat) :
    (sortList l).Sorted (· ≤ ·) := List.sorted_insertionSort _ l

theorem sortList_perm (l : List Nat) : List.Perm (sortList l) l :=
  List.perm_insertionSort _ l

theorem sortList_eq_finset_sort {v : List Nat} (hv : v.Nodup) :
    sortList v = v.toFinset.sort (· ≤ ·) := by
  have hw : (sortList v).Nodup := ((sortList_perm v).nodup_iff).2 hv
  have hfin : (sortList v).toFinset = v.toFinset :=
    List.toFinset_eq_of_perm _ _ (sortList_perm v)
  have h := (List.toFinset_sort (r := (· ≤ ·)) hw).2 (sortList_sorted v)
  rw [hfin] at h
  exact h.symm

theorem key_mem_universe {nfa : Nfa} {v : List Nat} (hv : v.Nodup)
    (hsub : ∀ x ∈ v, x ∈ nfa.statesFinset) :
    sortList v ∈ keyUniverse nfa := by
  unfold keyUniverse
  apply Finset.mem_insert_of_mem
  rw [Finset.mem_image]
  refine ⟨v.toFinset, ?_, (sortList_eq_finset_sort hv).symm⟩
  rw [Finset.mem_powerset]
  intro x hx
  exact hsub x (List.mem_toFinset.1 hx)

theorem keyUniverse_card (nfa : Nfa) :
    (keyUniverse nfa).card ≤ 1 + 2 ^ nfa.statesFinset.card := by
  unfold keyUniverse
  calc (insert (sortList (startList nfa))
        ((nfa.statesFinset.powerset).image (fun A => A.sort (· ≤ ·)))).card
      ≤ ((nfa.statesFinset.powerset).image
          (fun A => A.sort (· ≤ ·))).card + 1 := Finset.card_insert_le _ _
    _ ≤ (nfa.statesFinset.powerset).card + 1 :=
        Nat.add_le_add_right (Finset.card_image_le) 1
    _ = 2 ^ nfa.statesFinset.card + 1 := by rw [Finset.card_powerset]
    _ = 1 + 2 ^ nfa.statesFinset.card := Nat.add_comm _ _

theorem nodup_mem_length_le {α : Type} [DecidableEq α] {l : List α}
    {F : Finset α} (hnodup : l.Nodup) (hsub : ∀ x ∈ l, x ∈ F) :
    l.length ≤ F.card := by
  rw [← List.toFinset_card_of_nodup hnodup]
  apply Finset.card_le_card
  intro x hx
  exact hsub x (List.mem_toFinset.1 hx)

theorem ctxOK_ids_nodup {ctx : DfaContext} (h : CtxOK ctx) :
    (ctx.state_map.map Prod.snd).Nodup := by
  rw [h]
  exact List.nodup_range _

theorem ctxOK_id_lt {ctx : DfaContext} (h : CtxOK ctx) {e : List Nat × Nat}
    (he : e ∈ ctx.state_map) : e.2 < ctx.state_count := by
  have : e.2 ∈ ctx.state_map.map Prod.snd := List.mem_map.2 ⟨e, he, rfl⟩
  rw [h] at this
  exact List.mem_range.1 this

/-- The registrar-call bookkeeping: `get_state` grows the map by at most one
entry, with a fresh id and the sorted input as key, and preserves the
invariants. -/
theorem get_state_props {ctx : DfaContext} (l : List Nat)
    (hOK : CtxOK ctx) (hND : (ctx.state_map.map Prod.fst).Nodup) :
    ∃ suffix, (ctx.get_state l).2.state_map = ctx.state_map ++ suffix ∧
      CtxOK (ctx.get_state l).2 ∧
      ((ctx.get_state l).2.state_map.map Prod.fst).Nodup ∧
      (∀ e ∈ suffix, ctx.state_count ≤ e.2 ∧ e.1 = sortList l) ∧
      (ctx.get_state l).1 < (ctx.get_state l).2.state_count ∧
      ctx.state_count ≤ (ctx.get_state l).2.state_count := by
  unfold DfaContext.get_state
  dsimp only
  rcases h : assocFind ctx.state_map (sortList l) with _ | i
  all_goals dsimp only
  · refine ⟨[(sortList l, ctx.state_count)], by simp, ?_, ?_, ?_, ?_, ?_⟩
    · show (ctx.state_map ++ [(sortList l, ctx.state_count)]).map Prod.snd =
        List.range (ctx.state_count + 1)
      rw [List.map_append, hOK, List.range_succ]
      rfl
    · show ((ctx.state_map ++ [(sortList l, ctx.state_count)]).map
        Prod.fst).Nodup
      rw [List.map_append, List.nodup_append]
      refine ⟨hND, by simp, ?_⟩
      intro x hx
      simp only [List.map_cons, List.map_nil, List.mem_singleton]
      intro he
      rw [assocFind_none_iff] at h
      exact h (he ▸ hx)
    · intro e he
      rcases List.mem_cons.1 he with h2 | h2
      · subst h2
        exact ⟨Nat.le_refl _, rfl⟩
      · cases h2
    · show ctx.state_count < ctx.state_count + 1
      exact Nat.lt_succ_self _
    · show ctx.state_count ≤ ctx.state_count + 1
      exact Nat.le_succ _
  · refine ⟨[], by simp, hOK, hND, ?_, ?_, Nat.le_refl _⟩
    · intro e he
      cases he
    · show i < ctx.state_count
      exact ctxOK_id_lt hOK (assocFind_mem h)

/-- Counting visited registrar entries after inserting the popped id. -/
theorem filter_visited_insert {m : List (List Nat × Nat)} {i : Nat}
    (v : Finset Nat) (hids : (m.map Prod.snd).Nodup)
    (hin : i ∈ m.map Prod.snd) :
    (m.filter (fun e => e.2 ∈ insert i v)).length =
      (m.filter (fun e => e.2 ∈ v)).length + (if i ∈ v then 0 else 1) := by
  induction m with
  | nil => cases hin
  | cons e t ih =>
    rw [List.map_cons, List.nodup_cons] at hids
    rw [List.map_cons] at hin
    by_cases hei : e.2 = i
    · have htail : ∀ e2 ∈ t, e2.2 ≠ i := by
        intro e2 he2 hne
        apply hids.1
        rw [hei, ← hne]
        exact List.mem_map.2 ⟨e2, he2, rfl⟩
      have hfilt : t.filter (fun e2 => decide (e2.2 ∈ insert i v)) =
          t.filter (fun e2 => decide (e2.2 ∈ v)) := by
        apply List.filter_congr
        intro e2 he2
        simp only [decide_eq_decide, Finset.mem_insert]
        constructor
        · rintro (h2 | h2)
          · exact absurd h2 (htail e2 he2)
          · exact h2
        · exact Or.inr
      rw [List.filter_cons, List.filter_cons]
      have h1 : (decide (e.2 ∈ insert i v)) = true := by
        simp [hei]
      rw [h1, if_pos rfl]
      by_cases hiv : i ∈ v
      · have h2 : (decide (e.2 ∈ v)) = true := by simp [hei, hiv]
        rw [h2, if_pos rfl, hfilt]
        simp only [List.length_cons, if_pos hiv]
      · have h2 : (decide (e.2 ∈ v)) = false := by simp [hei, hiv]
        rw [h2, if_neg Bool.false_ne_true, hfilt]
        simp only [List.length_cons, if_neg hiv]
    · have hin2 : i ∈ t.map Prod.snd := by
        rcases List.mem_cons.1 hin with h2 | h2
        · exact absurd h2.symm hei
        · exact h2
      rw [List.filter_cons, List.filter_cons]
      have hcong : (decide (e.2 ∈ insert i v)) = (decide (e.2 ∈ v)) := by
        simp only [decide_eq_decide, Finset.mem_insert]
        constructor
        · rintro (h2 | h2)
          · exact absurd h2 hei
          · exact h2
        · exact Or.inr
      rw [hcong]
      cases h2 : decide (e.2 ∈ v) with
      | false =>
        rw [if_neg Bool.false_ne_true, if_neg Bool.false_ne_true]
        exact ih hids.2 hin2
      | true =>
        rw [if_pos rfl, if_pos rfl]
        simp only [List.length_cons]
        rw [ih hids.2 hin2]
        omega

/-! ### The transition map is bounded by the NFA's symbol alphabet -/

theorem mem_rowChars (row : List (Option Char × List Nat)) :
    ∀ (acc : List Char) (c : Char),
      c ∈ row.foldr (fun p a2 => p.1.toList ++ a2) acc ↔
        (∃ p ∈ row, c ∈ p.1.toList) ∨ c ∈ acc := by
  induction row with
  | nil => intro acc c; simp
  | cons p t ih =>
    intro acc c
    rw [List.foldr_cons, List.mem_append, ih]
    constructor
    · rintro (h | h | h)
      · exact Or.inl ⟨p, List.mem_cons_self _ _, h⟩
      · obtain ⟨q, hq, hc⟩ := h
        exact Or.inl ⟨q, List.mem_cons_of_mem _ hq, hc⟩
      · exact Or.inr h
    · rintro (⟨q, hq, hc⟩ | h)
      · rcases List.mem_cons.1 hq with h2 | h2
        · exact Or.inl (h2 ▸ hc)
        · exact Or.inr (Or.inl ⟨q, h2, hc⟩)
      · exact Or.inr (Or.inr h)

theorem mem_charsFold (ts : List (Nat × List (Option Char × List Nat))) :
    ∀ (acc : List Char) (c : Char),
      c ∈ ts.foldr
          (fun e acc2 => e.2.foldr (fun p a2 => p.1.toList ++ a2) acc2)
          acc ↔
        (∃ e ∈ ts, ∃ p ∈ e.2, c ∈ p.1.toList) ∨ c ∈ acc := by
  induction ts with
  | nil => intro acc c; simp
  | cons e t ih =>
    intro acc c
    rw [List.foldr_cons, mem_rowChars, ih]
    constructor
    · rintro (h | h | h)
      · exact Or.inl ⟨e, List.mem_cons_self _ _, h⟩
      · obtain ⟨e2, he2, hp⟩ := h
        exact Or.inl ⟨e2, List.mem_cons_of_mem _ he2, hp⟩
      · exact Or.inr h
    · rintro (⟨e2, he2, hp⟩ | h)
      · rcases List.mem_cons.1 he2 with h2 | h2
        · exact Or.inl (h2 ▸ hp)
        · exact Or.inr (Or.inl ⟨e2, h2, hp⟩)
      · exact Or.inr (Or.inr h)

theorem mem_charsList_of_next_chars {nfa : Nfa} {s : Nat} {c : Char}
    (h : (some c) ∈ nfa.next_chars s) : c ∈ nfa.charsList := by
  unfold Nfa.next_chars at h
  rcases h1 : assocFind nfa.transitions s with _ | table
  · rw [h1] at h
    cases h
  · rw [h1] at h
    obtain ⟨p, hp, hps⟩ := List.mem_map.1 h
    unfold Nfa.charsList
    rw [mem_charsFold]
    refine Or.inl ⟨(s, table), assocFind_mem h1, p, hp, ?_⟩
    rw [hps]
    simp

theorem buildTmap_length_le (nfa : Nfa) (look : List Nat) :
    (buildTmap nfa look).length ≤ nfa.charBound := by
  have hnd := buildTmap_keys_nodup nfa look
  have hsub : ∀ k ∈ (buildTmap nfa look).map Prod.fst, k ∈ nfa.charsList := by
    intro k hk
    rcases hfind : assocFind (buildTmap nfa look) k with _ | v
    · rw [assocFind_none_iff] at hfind
      exact absurd hk hfind
    · obtain ⟨s, hs, hc⟩ := (buildTmap_entry_iff nfa look k).1 ⟨v, hfind⟩
      exact mem_charsList_of_next_chars hc
  calc (buildTmap nfa look).length
      = ((buildTmap nfa look).map Prod.fst).length := (List.length_map _ _).symm
    _ ≤ nfa.charsList.toFinset.card :=
        nodup_mem_length_le hnd (fun k hk => List.mem_toFinset.2 (hsub k hk))
    _ ≤ nfa.charsList.length := List.toFinset_card_le _
    _ = nfa.charBound := rfl

/-! ### The transition-map values live inside the NFA's state universe -/

theorem closureSeed_mem_states (nfa : Nfa) (s : Nat) (c : Char) :
    ∀ x ∈ closureList nfa
        (nfa.next_states s (some c) ++ nfa.next_states s none),
      x ∈ nfa.statesFinset := by
  intro x hx
  have hset : x ∈ {z | z ∈ closureList nfa
      (nfa.next_states s (some c) ++ nfa.next_states s none)} := hx
  rw [closureList_eq_reach] at hset
  obtain ⟨a, ha, hr⟩ := hset
  have hamem : a ∈ nfa.statesList := by
    rcases List.mem_append.1 ha with h2 | h2
    · exact mem_statesList_of_next a h2
    · exact mem_statesList_of_next a h2
  rcases epsReach_mem_states hr with h2 | h2
  · exact List.mem_toFinset.2 (h2 ▸ hamem)
  · exact List.mem_toFinset.2 h2

theorem tmapExtend_values (P : Nat → Prop) (c : Char) (ns : List Nat)
    (hns : ∀ x ∈ ns, P x) :
    ∀ tm : List (Char × List Nat),
      (∀ p ∈ tm, p.2.Nodup ∧ ∀ x ∈ p.2, P x) →
      ∀ p ∈ tmapExtend tm c ns, p.2.Nodup ∧ ∀ x ∈ p.2, P x := by
  intro tm
  induction tm with
  | nil =>
    intro _ p hp
    rcases List.mem_cons.1 hp with h2 | h2
    · subst h2
      refine ⟨nodup_extendDedup ns [] List.nodup_nil, ?_⟩
      intro x hx
      rcases (mem_extendDedup ns [] x).1 hx with h3 | h3
      · cases h3
      · exact hns x h3
    · cases h2
  | cons e t ih =>
    intro htm p hp
    obtain ⟨k, v⟩ := e
    by_cases hk : c = k
    · rw [tmapExtend, if_pos hk] at hp
      rcases List.mem_cons.1 hp with h2 | h2
      · subst h2
        obtain ⟨hv1, hv2⟩ := htm (k, v) (List.mem_cons_self _ _)
        refine ⟨nodup_extendDedup ns v hv1, ?_⟩
        intro x hx
        rcases (mem_extendDedup ns v x).1 hx with h3 | h3
        · exact hv2 x h3
        · exact hns x h3
      · exact htm p (List.mem_cons_of_mem _ h2)
    · rw [tmapExtend, if_neg hk] at hp
      rcases List.mem_cons.1 hp with h2 | h2
      · exact htm p (h2 ▸ List.mem_cons_self _ _)
      · exact ih (fun q hq => htm q (List.mem_cons_of_mem _ hq)) p h2

theorem buildTmap_values (nfa : Nfa) (look : List Nat) :
    ∀ p ∈ buildTmap nfa look,
      p.2.Nodup ∧ ∀ x ∈ p.2, x ∈ nfa.statesFinset := by
  have hgen : ∀ (l : List Nat) (tm : List (Char × List Nat)),
      (∀ p ∈ tm, p.2.Nodup ∧ ∀ x ∈ p.2, x ∈ nfa.statesFinset) →
      ∀ p ∈ l.foldl (fun tm3 s =>
          ((nfa.next_chars s).filterMap id).foldl (fun tm2 c =>
            tmapExtend tm2 c (closureList nfa
              (nfa.next_states s (some c) ++ nfa.next_states s none))) tm3)
          tm,
        p.2.Nodup ∧ ∀ x ∈ p.2, x ∈ nfa.statesFinset := by
    intro l
    induction l with
    | nil => intro tm htm; simpa using htm
    | cons s l2 ih =>
      intro tm htm
      rw [List.foldl_cons]
      apply ih
      have hinner : ∀ (cs : List Char) (tm2 : List (Char × List Nat)),
          (∀ p ∈ tm2, p.2.Nodup ∧ ∀ x ∈ p.2, x ∈ nfa.statesFinset) →
          ∀ p ∈ cs.foldl (fun tm3 c =>
              tmapExtend tm3 c (closureList nfa
                (nfa.next_states s (some c) ++ nfa.next_states s none)))
              tm2,
            p.2.Nodup ∧ ∀ x ∈ p.2, x ∈ nfa.statesFinset := by
        intro cs
        induction cs with
        | nil => intro tm2 htm2; simpa using htm2
        | cons c cs2 ihc =>
          intro tm2 htm2
          rw [List.foldl_cons]
          exact ihc _ (tmapExtend_values _ c _
            (closureSeed_mem_states nfa s c) tm2 htm2)
      exact hinner _ tm htm
  exact hgen look [] (by intro p hp; cases hp)

/-! ### The loop body of the entry fold, with full bookkeeping -/

theorem filter_length_append_notmem {m s : List (List Nat × Nat)}
    {v : Finset Nat} (h : ∀ e ∈ s, e.2 ∉ v) :
    ((m ++ s).filter (fun e => e.2 ∈ v)).length =
      (m.filter (fun e => e.2 ∈ v)).length := by
  rw [List.filter_append, List.length_append]
  have hnil : s.filter (fun e => decide (e.2 ∈ v)) = [] := by
    rw [List.filter_eq_nil_iff]
    intro e he
    simpa using h e he
  rw [hnil]
  simp

theorem map_length_le_universe {nfa : Nfa} {ctx : DfaContext}
    (hND : (ctx.state_map.map Prod.fst).Nodup)
    (hkeys : ∀ e ∈ ctx.state_map, e.1 ∈ keyUniverse nfa) :
    ctx.state_map.length ≤ (keyUniverse nfa).card := by
  calc ctx.state_map.length
      = (ctx.state_map.map Prod.fst).length := (List.length_map _ _).symm
    _ ≤ (keyUniverse nfa).card := by
        apply nodup_mem_length_le hND
        intro k hk
        obtain ⟨e, he, hek⟩ := List.mem_map.1 hk
        exact hek ▸ hkeys e he

/-- Full bookkeeping of the `for (char, next_states) in transition_map`
fold: the registrar grows by a suffix of fresh ids, every invariant is
preserved, and everything newly pushed onto the worklist is a
registrar-registered subset whose id is not in the visited set. -/
theorem stepEntries_master (nfa : Nfa) (v2 : Finset Nat) (form : Nat) :
    ∀ (entries : List (Char × List Nat)) (ctx : DfaContext)
      (pushed0 : List (List Nat)) (tr : List ((Nat × Char) × Nat)),
      CtxOK ctx →
      (ctx.state_map.map Prod.fst).Nodup →
      (∀ e ∈ ctx.state_map, e.1 ∈ keyUniverse nfa) →
      (∀ p ∈ entries, p.2.Nodup ∧ ∀ x ∈ p.2, x ∈ nfa.statesFinset) →
      ∃ suffix newPushed,
        (stepEntries v2 form entries ctx pushed0 tr).1.state_map =
          ctx.state_map ++ suffix ∧
        CtxOK (stepEntries v2 form entries ctx pushed0 tr).1 ∧
        ((stepEntries v2 form entries ctx pushed0 tr).1.state_map.map
          Prod.fst).Nodup ∧
        (∀ e ∈ (stepEntries v2 form entries ctx pushed0 tr).1.state_map,
          e.1 ∈ keyUniverse nfa) ∧
        (∀ e ∈ suffix, ctx.state_count ≤ e.2) ∧
        (stepEntries v2 form entries ctx pushed0 tr).2.1 =
          newPushed ++ pushed0 ∧
        newPushed.length ≤ entries.length ∧
        (∀ w ∈ newPushed, ∃ i, (sortList w, i) ∈
          (stepEntries v2 form entries ctx pushed0 tr).1.state_map ∧
          i ∉ v2) ∧
        ctx.state_count ≤
          (stepEntries v2 form entries ctx pushed0 tr).1.state_count := by
  intro entries
  induction entries with
  | nil =>
    intro ctx pushed0 tr hOK hND hkeys _
    refine ⟨[], [], by simp [stepEntries], hOK, hND, hkeys, ?_,
      by simp [stepEntries], Nat.le_refl _, ?_, Nat.le_refl _⟩
    · intro e he
      cases he
    · intro w hw
      cases hw
  | cons e t ih =>
    intro ctx pushed0 tr hOK hND hkeys hvals
    obtain ⟨c, ns⟩ := e
    obtain ⟨hns1, hns2⟩ := hvals (c, ns) (List.mem_cons_self _ _)
    obtain ⟨s1, hmap1, hOK1, hND1, hfresh1, hlt1, hcnt1⟩ :=
      @get_state_props ctx ns hOK hND
    have hkeys1 : ∀ e2 ∈ (ctx.get_state ns).2.state_map,
        e2.1 ∈ keyUniverse nfa := by
      intro e2 he2
      rw [hmap1] at he2
      rcases List.mem_append.1 he2 with h2 | h2
      · exact hkeys e2 h2
      · rw [(hfresh1 e2 h2).2]
        exact key_mem_universe hns1 hns2
    obtain ⟨s2, np2, hmap2, hOK2, hND2, hkeys2, hfresh2, hpush2, hlen2,
      hreg2, hcnt2⟩ :=
      ih (ctx.get_state ns).2
        (if (ctx.get_state ns).1 ∈ v2 then pushed0 else ns :: pushed0)
        (mapInsert tr (form, c) (ctx.get_state ns).1)
        hOK1 hND1 hkeys1
        (fun p hp => hvals p (List.mem_cons_of_mem _ hp))
    have hunfold : stepEntries v2 form ((c, ns) :: t) ctx pushed0 tr =
        stepEntries v2 form t (ctx.get_state ns).2
          (if (ctx.get_state ns).1 ∈ v2 then pushed0 else ns :: pushed0)
          (mapInsert tr (form, c) (ctx.get_state ns).1) := rfl
    rw [hunfold]
    refine ⟨s1 ++ s2,
      np2 ++ (if (ctx.get_state ns).1 ∈ v2 then [] else [ns]),
      ?_, hOK2, hND2, hkeys2, ?_, ?_, ?_, ?_,
      Nat.le_trans hcnt1 hcnt2⟩
    · rw [hmap2, hmap1, List.append_assoc]
    · intro e2 he2
      rcases List.mem_append.1 he2 with h2 | h2
      · exact (hfresh1 e2 h2).1
      · exact Nat.le_trans hcnt1 (hfresh2 e2 h2)
    · rw [hpush2]
      by_cases hgv : (ctx.get_state ns).1 ∈ v2
      · rw [if_pos hgv, if_pos hgv, List.append_nil]
      · rw [if_neg hgv, if_neg hgv, List.append_assoc,
          List.singleton_append]
    · by_cases hgv : (ctx.get_state ns).1 ∈ v2
      · rw [if_pos hgv, List.append_nil, List.length_cons]
        exact Nat.le_succ_of_le hlen2
      · rw [if_neg hgv, List.length_append, List.length_singleton,
          List.length_cons]
        exact Nat.add_le_add_right hlen2 1
    · intro w hw
      rcases List.mem_append.1 hw with h2 | h2
      · exact hreg2 w h2
      · by_cases hgv : (ctx.get_state ns).1 ∈ v2
        · rw [if_pos hgv] at h2
          cases h2
        · rw [if_neg hgv, List.mem_singleton] at h2
          subst h2
          refine ⟨(ctx.get_state w).1, ?_, hgv⟩
          rw [hmap2]
          exact List.mem_append_left _ (get_state_mem_map ctx w)

theorem headFlag_le_one (ctx : DfaContext) (v : Finset Nat) :
    ∀ w : List (List Nat),
      (match w with
       | [] => 0
       | look2 :: _ => if (ctx.get_state look2).1 ∈ v then 1 else 0) ≤ 1 := by
  intro w
  rcases w with _ | ⟨l2, t⟩
  · exact Nat.zero_le _
  · dsimp only
    by_cases hc : (ctx.get_state l2).1 ∈ v
    · rw [if_pos hc]
    · rw [if_neg hc]
      exact Nat.zero_le _

/-- One worklist iteration from an invariant state preserves the invariant
and strictly decreases the termination measure. -/
theorem step_decrease (nfa : Nfa) (st : DState) (hinv : DInv nfa st)
    (hne : st.waiting ≠ []) :
    DInv nfa (step nfa st) ∧
      measMain nfa (step nfa st) < measMain nfa st := by
  obtain ⟨hOK, hND, hkeys, hwait, hvis⟩ := hinv
  rcases hw : st.waiting with _ | ⟨look, rest⟩
  · exact absurd hw hne
  obtain ⟨i, hi⟩ := hwait look (by rw [hw]; exact List.mem_cons_self _ _)
  have hp1 : st.ctx.get_state look = (i, st.ctx) := get_state_hit hND hi
  have hiin : i ∈ st.ctx.state_map.map Prod.snd :=
    List.mem_map.2 ⟨(sortList look, i), hi, rfl⟩
  have hilt : i < st.ctx.state_count := ctxOK_id_lt hOK hi
  have hstep : step nfa st =
      { ctx := (stepEntries (insert i st.visited) i (buildTmap nfa look)
          st.ctx [] st.trans).1,
        waiting := (stepEntries (insert i st.visited) i (buildTmap nfa look)
          st.ctx [] st.trans).2.1 ++ rest,
        visited := insert i st.visited,
        trans := (stepEntries (insert i st.visited) i (buildTmap nfa look)
          st.ctx [] st.trans).2.2 } := by
    unfold step
    rw [hw]
    dsimp only
    rw [hp1]
    dsimp only
    rw [hp1]
  obtain ⟨suffix, newPushed, hmap, hOK2, hND2, hkeys2, hfreshS, hpush,
      hlen, hreg, hcnt⟩ :=
    stepEntries_master nfa (insert i st.visited) i (buildTmap nfa look)
      st.ctx [] st.trans hOK hND hkeys (buildTmap_values nfa look)
  have hvis' : (step nfa st).visited = insert i st.visited := by
    rw [hstep]
  have hwait' : (step nfa st).waiting = newPushed ++ rest := by
    rw [hstep]
    dsimp only
    rw [hpush, List.append_nil]
  have hctxmap : (step nfa st).ctx.state_map =
      st.ctx.state_map ++ suffix := by
    rw [hstep]
    dsimp only
    exact hmap
  have hsufv2 : ∀ e ∈ suffix, e.2 ∉ insert i st.visited := by
    intro e he hmem
    have hge := hfreshS e he
    rcases Finset.mem_insert.1 hmem with h2 | h2
    · omega
    · have := hvis _ h2
      omega
  have hVCstep : visitedCount (step nfa st) =
      visitedCount st + (if i ∈ st.visited then 0 else 1) := by
    unfold visitedCount
    rw [hvis', hctxmap, filter_length_append_notmem hsufv2]
    exact filter_visited_insert st.visited (ctxOK_ids_nodup hOK) hiin
  have hVCub : visitedCount (step nfa st) ≤
      1 + 2 ^ nfa.statesFinset.card := by
    unfold visitedCount
    calc ((step nfa st).ctx.state_map.filter
          (fun e => e.2 ∈ (step nfa st).visited)).length
        ≤ (step nfa st).ctx.state_map.length := List.length_filter_le _ _
      _ ≤ (keyUniverse nfa).card := by
          rw [hstep]
          dsimp only
          exact map_length_le_universe hND2 hkeys2
      _ ≤ 1 + 2 ^ nfa.statesFinset.card := keyUniverse_card nfa
  have hnplen : newPushed.length ≤ nfa.charBound :=
    Nat.le_trans hlen (buildTmap_length_le nfa look)
  have hmeas2 : measMain nfa st =
      (2 * nfa.charBound + 3) *
          ((2 + 2 ^ nfa.statesFinset.card) - visitedCount st) +
        (rest.length + 1) +
        (nfa.charBound + 1) * (if i ∈ st.visited then 1 else 0) := by
    unfold measMain
    rw [hw]
    dsimp only
    rw [hp1]
    rfl
  have hstepmeas : measMain nfa (step nfa st) =
      (2 * nfa.charBound + 3) *
          ((2 + 2 ^ nfa.statesFinset.card) -
            visitedCount (step nfa st)) +
        (newPushed ++ rest).length +
        (nfa.charBound + 1) *
          (match newPushed ++ rest with
           | [] => 0
           | look2 :: _ =>
             if ((step nfa st).ctx.get_state look2).1 ∈ insert i st.visited
             then 1 else 0) := by
    unfold measMain
    rw [hwait', hvis']
  constructor
  · -- the invariant is preserved
    rw [hstep]
    refine ⟨hOK2, hND2, hkeys2, ?_, ?_⟩
    · intro w hwmem
      dsimp only at hwmem
      rcases List.mem_append.1 hwmem with h2 | h2
      · rw [hpush, List.append_nil] at h2
        obtain ⟨j, hj, _⟩ := hreg w h2
        exact ⟨j, hj⟩
      · obtain ⟨j, hj⟩ := hwait w (by rw [hw]; exact List.mem_cons_of_mem _ h2)
        refine ⟨j, ?_⟩
        rw [hmap]
        exact List.mem_append_left _ hj
    · intro d hd
      dsimp only at hd ⊢
      rcases Finset.mem_insert.1 hd with h2 | h2
      · subst h2
        exact Nat.lt_of_lt_of_le hilt hcnt
      · exact Nat.lt_of_lt_of_le (hvis d h2) hcnt
  · -- the measure strictly decreases
    rw [hstepmeas, hmeas2]
    by_cases hvisi : i ∈ st.visited
    · rw [hVCstep, if_pos hvisi, if_pos hvisi, Nat.add_zero]
      rcases hnpc : newPushed with _ | ⟨w0, wt⟩
      · rw [List.nil_append]
        have harith : ∀ X Y : Nat, Y ≤ 1 →
            X + rest.length + (nfa.charBound + 1) * Y <
              X + (rest.length + 1) + (nfa.charBound + 1) * 1 := by
          intro X Y hYle
          rcases Nat.le_one_iff_eq_zero_or_eq_one.1 hYle with h | h
          · subst h
            rw [Nat.mul_zero, Nat.mul_one]
            omega
          · subst h
            omega
        exact harith _ _ (headFlag_le_one _ _ _)
      · have hflag : (match (w0 :: wt) ++ rest with
            | [] => 0
            | look2 :: _ =>
              if ((step nfa st).ctx.get_state look2).1 ∈ insert i st.visited
              then 1 else 0) = 0 := by
          rw [List.cons_append]
          dsimp only
          obtain ⟨j, hj, hjnv⟩ := hreg w0 (hnpc ▸ List.mem_cons_self _ _)
          have hhit : (step nfa st).ctx.get_state w0 = (j, (step nfa st).ctx) := by
            rw [hstep]
            dsimp only
            exact get_state_hit hND2 hj
          rw [hhit]
          exact if_neg hjnv
        rw [hflag, Nat.mul_zero, Nat.add_zero, List.cons_append,
          List.length_cons]
        have hnp2 : wt.length + 1 ≤ nfa.charBound := by
          rw [hnpc] at hnplen
          simpa using hnplen
        have harith : ∀ X : Nat,
            X + (wt ++ rest).length + 1 <
              X + (rest.length + 1) + (nfa.charBound + 1) * 1 := by
          intro X
          rw [Nat.mul_one, List.length_append]
          omega
        exact harith _
    · rw [hVCstep, if_neg hvisi, if_neg hvisi, Nat.mul_zero, Nat.add_zero]
      have hVC1 : visitedCount st + 1 ≤ 1 + 2 ^ nfa.statesFinset.card := by
        rw [hVCstep, if_neg hvisi] at hVCub
        exact hVCub
      have hsplit : (2 * nfa.charBound + 3) *
          ((2 + 2 ^ nfa.statesFinset.card) - visitedCount st) =
          (2 * nfa.charBound + 3) *
            ((2 + 2 ^ nfa.statesFinset.card) - (visitedCount st + 1)) +
            (2 * nfa.charBound + 3) := by
        have h2 : (2 + 2 ^ nfa.statesFinset.card) - visitedCount st =
            ((2 + 2 ^ nfa.statesFinset.card) - (visitedCount st + 1)) + 1 := by
          omega
        rw [h2, Nat.mul_add, Nat.mul_one]
      rw [hsplit]
      rcases hnpc : newPushed with _ | ⟨w0, wt⟩
      · rw [List.nil_append]
        have harith : ∀ X Y : Nat, Y ≤ 1 →
            X + rest.length + (nfa.charBound + 1) * Y <
              (X + (2 * nfa.charBound + 3)) + (rest.length + 1) := by
          intro X Y hYle
          rcases Nat.le_one_iff_eq_zero_or_eq_one.1 hYle with h | h
          · subst h
            rw [Nat.mul_zero]
            omega
          · subst h
            rw [Nat.mul_one]
            omega
        exact harith _ _ (headFlag_le_one _ _ _)
      · have hflag : (match (w0 :: wt) ++ rest with
            | [] => 0
            | look2 :: _ =>
              if ((step nfa st).ctx.get_state look2).1 ∈ insert i st.visited
              then 1 else 0) = 0 := by
          rw [List.cons_append]
          dsimp only
          obtain ⟨j, hj, hjnv⟩ := hreg w0 (hnpc ▸ List.mem_cons_self _ _)
          have hhit : (step nfa st).ctx.get_state w0 = (j, (step nfa st).ctx) := by
            rw [hstep]
            dsimp only
            exact get_state_hit hND2 hj
          rw [hhit]
          exact if_neg hjnv
        rw [hflag, Nat.mul_zero, Nat.add_zero, List.cons_append,
          List.length_cons]
        have hnp2 : wt.length + 1 ≤ nfa.charBound := by
          rw [hnpc] at hnplen
          simpa using hnplen
        have harith : ∀ X : Nat,
            X + (wt ++ rest).length + 1 <
              (X + (2 * nfa.charBound + 3)) + (rest.length + 1) := by
          intro X
          rw [List.length_append]
          omega
        exact harith _

/-! ### Termination of `Dfa::from_nfa` -/

theorem DInv_initState (nfa : Nfa) : DInv nfa (initState nfa) := by
  refine ⟨?_, ?_, ?_, ?_, ?_⟩
  · show (List.map Prod.snd [(sortList (startList nfa), 0)]) = List.range 1
    rfl
  · show (List.map Prod.fst [(sortList (startList nfa), 0)]).Nodup
    simp
  · intro e he
    have he2 : e ∈ [(sortList (startList nfa), 0)] := he
    rw [List.mem_singleton] at he2
    subst he2
    exact Finset.mem_insert_self _ _
  · intro w hwmem
    have hw2 : w ∈ [startList nfa] := hwmem
    rw [List.mem_singleton] at hw2
    subst hw2
    exact ⟨0, List.mem_singleton_self _⟩
  · intro d hd
    have hd2 : d ∈ (∅ : Finset Nat) := hd
    cases Finset.not_mem_empty d hd2

theorem measMain_init_lt (nfa : Nfa) :
    measMain nfa (initState nfa) < mainFuel nfa := by
  have hVC : visitedCount (initState nfa) = 0 := by
    unfold visitedCount
    rw [initState_ctx_map]
    have hvempty : (initState nfa).visited = ∅ := rfl
    rw [hvempty]
    simp
  have hwinit : (initState nfa).waiting = [startList nfa] := rfl
  unfold measMain mainFuel
  rw [hVC, hwinit]
  dsimp only
  have hvempty : (initState nfa).visited = ∅ := rfl
  rw [hvempty, if_neg (Finset.not_mem_empty _), Nat.mul_zero, Nat.add_zero,
    Nat.sub_zero]
  have harith : ∀ X k : Nat, X + 1 < X + k + 2 := by
    intro X k
    omega
  exact harith _ _

theorem stepN_empty_of_fuel (nfa : Nfa) :
    ∀ (fuel : Nat) (st : DState), DInv nfa st → measMain nfa st < fuel →
      (stepN nfa fuel st).waiting = [] := by
  intro fuel
  induction fuel with
  | zero =>
    intro st _ h
    exact absurd h (Nat.not_lt_zero _)
  | succ m ih =>
    intro st hinv hlt
    rcases hw : st.waiting with _ | ⟨look, rest⟩
    · unfold stepN
      rw [hw]
      dsimp only
      exact hw
    · obtain ⟨hinv2, hdec⟩ := step_decrease nfa st hinv (by rw [hw]; simp)
      unfold stepN
      rw [hw]
      dsimp only
      exact ih (step nfa st) hinv2 (by omega)

theorem stepN_stable (nfa : Nfa) :
    ∀ (f1 : Nat) (st : DState) (f2 : Nat), DInv nfa st →
      measMain nfa st < f1 → f1 ≤ f2 →
      stepN nfa f1 st = stepN nfa f2 st := by
  intro f1
  induction f1 with
  | zero =>
    intro st f2 _ h _
    exact absurd h (Nat.not_lt_zero _)
  | succ m ih =>
    intro st f2 hinv hlt hle
    rcases f2 with _ | m2
    · exact absurd hle (by omega)
    rcases hw : st.waiting with _ | ⟨look, rest⟩
    · unfold stepN
      rw [hw]
    · obtain ⟨hinv2, hdec⟩ := step_decrease nfa st hinv (by rw [hw]; simp)
      unfold stepN
      rw [hw]
      dsimp only
      exact ih (step nfa st) m2 hinv2 (by omega) (by omega)


theorem epsLoop1_stable (nfa : Nfa) :
    ∀ (f1 : Nat) (stack ret : List Nat) (f2 : Nat),
      measEps1 nfa stack ret < f1 → measEps1 nfa stack ret < f2 →
      epsLoop1 nfa f1 stack ret = epsLoop1 nfa f2 stack ret := by
  intro f1
  induction f1 with
  | zero =>
    intro stack ret f2 h _
    exact absurd h (Nat.not_lt_zero _)
  | succ m ih =>
    intro stack ret f2 h1 h2
    rcases f2 with _ | m2
    · exact absurd h2 (Nat.not_lt_zero _)
    rcases stack with _ | ⟨s, rest⟩
    · rfl
    · have hd := measEps1_decrease nfa s rest ret
      have e1 : epsLoop1 nfa (m + 1) (s :: rest) ret =
          epsLoop1 nfa m
            (((nfa.next_states s none).filter
                (fun x => !(ret ++ [s]).contains x)).reverse ++ rest)
            (ret ++ [s]) := rfl
      have e2 : epsLoop1 nfa (m2 + 1) (s :: rest) ret =
          epsLoop1 nfa m2
            (((nfa.next_states s none).filter
                (fun x => !(ret ++ [s]).contains x)).reverse ++ rest)
            (ret ++ [s]) := rfl
      rw [e1, e2]
      exact ih _ _ m2 (by omega) (by omega)

theorem epsLoop2_stable (nfa : Nfa) :
    ∀ (f1 : Nat) (stack ns : List Nat) (f2 : Nat),
      measEps2 nfa stack ns < f1 → measEps2 nfa stack ns < f2 →
      epsLoop2 nfa f1 stack ns = epsLoop2 nfa f2 stack ns := by
  intro f1
  induction f1 with
  | zero =>
    intro stack ns f2 h _
    exact absurd h (Nat.not_lt_zero _)
  | succ m ih =>
    intro stack ns f2 h1 h2
    rcases f2 with _ | m2
    · exact absurd h2 (Nat.not_lt_zero _)
    rcases stack with _ | ⟨u, rest⟩
    · rfl
    · have hd := measEps2_decrease nfa u rest ns
      have e1 : epsLoop2 nfa (m + 1) (u :: rest) ns =
          epsLoop2 nfa m
            (((nfa.next_states u none).filter
                (fun x => !ns.contains x)).reverse ++ rest)
            (ns ++ nfa.next_states u none) := rfl
      have e2 : epsLoop2 nfa (m2 + 1) (u :: rest) ns =
          epsLoop2 nfa m2
            (((nfa.next_states u none).filter
                (fun x => !ns.contains x)).reverse ++ rest)
            (ns ++ nfa.next_states u none) := rfl
      rw [e1, e2]
      exact ih _ _ m2 (by omega) (by omega)

/-- **C5**: for every finite input NFA, `Dfa::from_nfa` terminates. The
worklist loop empties: with the explicitly given finite fuel the loop
reaches the `waiting.pop() == None` exit, and any larger fuel yields the
same final state (the loop has hit its fixed point). Likewise both inner
epsilon-traversal loops reach their empty-stack exit within their finite
measure — for arbitrary stack contents, hence also on cyclic epsilon
graphs — so their result is independent of any further fuel. -/
theorem c5_termination (nfa : Nfa) :
    ((determinize nfa).waiting = [] ∧
      ∀ fuel, mainFuel nfa ≤ fuel →
        stepN nfa fuel (initState nfa) = determinize nfa) ∧
    (∀ (f1 : Nat) (stack ret : List Nat) (f2 : Nat),
      measEps1 nfa stack ret < f1 → measEps1 nfa stack ret < f2 →
      epsLoop1 nfa f1 stack ret = epsLoop1 nfa f2 stack ret) ∧
    (∀ (f1 : Nat) (stack ns : List Nat) (f2 : Nat),
      measEps2 nfa stack ns < f1 → measEps2 nfa stack ns < f2 →
      epsLoop2 nfa f1 stack ns = epsLoop2 nfa f2 stack ns) := by
  refine ⟨⟨?_, ?_⟩, epsLoop1_stable nfa, epsLoop2_stable nfa⟩
  · exact stepN_empty_of_fuel nfa (mainFuel nfa) (initState nfa)
      (DInv_initState nfa) (measMain_init_lt nfa)
  · intro fuel hf
    exact (stepN_stable nfa (mainFuel nfa) (initState nfa) fuel
      (DInv_initState nfa) (measMain_init_lt nfa) hf).symm

/-- Witness for C5 on the epsilon-cyclic NFA `nfaCycle`: the worklist loop
empties, extra fuel changes nothing, and both inner loops are stable past
their measure. -/
theorem c5_witness :
    (determinize nfaCycle).waiting = [] ∧
    stepN nfaCycle (mainFuel nfaCycle + 5) (initState nfaCycle) =
      determinize nfaCycle ∧
    epsLoop1 nfaCycle 20 [1] [0] = epsLoop1 nfaCycle 25 [1] [0] ∧
    epsLoop2 nfaCycle 20 [1] [0] = epsLoop2 nfaCycle 25 [1] [0] :=
  ⟨(c5_termination nfaCycle).1.1,
   (c5_termination nfaCycle).1.2 _ (Nat.le_add_right _ 5),
   (c5_termination nfaCycle).2.1 20 [1] [0] 25 (by decide) (by decide),
   (c5_termination nfaCycle).2.2 20 [1] [0] 25 (by decide) (by decide)⟩

/-! ### C1: behaviour of the registrar on set-equal inputs -/

/-- C1 (code bug): the registrar sorts but does not deduplicate, so the two
set-equal presentations `[1, 1]` and `[1]` of the set `{1}` receive *different*
`DfaState` ids (0 and then 1) from a fresh registrar, violating the claimed
set-identity contract. -/
theorem c1_registrar_duplicates_bug :
    (([1, 1] : List Nat).toFinset = ([1] : List Nat).toFinset) ∧
    ((DfaContext.empty.get_state [1, 1]).1 = 0 ∧
      (((DfaContext.empty.get_state [1, 1]).2).get_state [1]).1 = 1) := by
  constructor
  · decide
  · constructor <;> rfl

/-! ### C9: the escape-character contract of `parse_escape` -/

/-- C9: `parse_escape pos c` succeeds with the literal node `Ast.Char c`
exactly when `c` is one of `\\ ( ) | *`, and fails with
`ParseError.InvalidEscape pos c` (carrying that position and character)
exactly when it is not. -/
theorem c9_parse_escape_contract (pos : Nat) (c : Char) :
    (parse_escape pos c = Except.ok (Ast.Char c) ↔
      c ∈ ['\\', '(', ')', '|', '*']) ∧
    (parse_escape pos c = Except.error (ParseError.InvalidEscape pos c) ↔
      c ∉ ['\\', '(', ')', '|', '*']) := by
  by_cases h : c ∈ ESCAPE_CHARS <;>
    simp [parse_escape, h, ESCAPE_CHARS] at * <;> tauto

/-! ### C10: a trailing unescaped backslash is silently dropped -/

/-- Splitting the character loop of `parse` at a list append. -/
theorem parseLoop_append (pos : Nat) (xs ys : List Char) (st : ParseState) :
    parseLoop pos (xs ++ ys) st =
      match parseLoop pos xs st with
      | .error e => .error e
      | .ok st2 => parseLoop (pos + xs.length) ys st2 := by
  induction xs generalizing pos st with
  | nil => simp [parseLoop]
  | cons c rest ih =>
    rw [List.cons_append]
    unfold parseLoop
    cases parseStep pos c st with
    | error e => rfl
    | ok st2 =>
      dsimp only
      rw [ih (pos + 1) st2]
      cases parseLoop (pos + 1) rest st2 with
      | error e => rfl
      | ok st3 =>
        simp only [List.length_cons]
        have h : pos + 1 + rest.length = pos + (rest.length + 1) := by omega
        rw [h]
        cases ys <;> rfl

/-- `finishParse` never looks at the `is_escape` flag. -/
theorem finishParse_is_escape (st : ParseState) (b : Bool) :
    finishParse { st with is_escape := b } = finishParse st := rfl

/-- C10: if processing `p` reaches the end of the loop in a non-escaped state
(so a final backslash of `p ++ ['\\']` is a *single, unescaped* trailing
backslash), `parse` reports no error for the dangling escape: it returns
exactly `parse p`. -/
theorem c10_trailing_backslash_ignored (p : List Char) (st : ParseState)
    (hloop : parseLoop 0 p parseInit = Except.ok st)
    (hesc : st.is_escape = false) :
    parse (p ++ ['\\']) = parse p := by
  unfold parse
  rw [parseLoop_append, hloop]
  have hstep : parseStep (0 + p.length) '\\' st =
      Except.ok { st with is_escape := true } := by
    unfold parseStep
    rw [hesc]
    simp
  simp only [parseLoop, hstep]
  exact finishParse_is_escape st true

/-! ### C6: the DFA accept set -/

/-- C6: after `Dfa::from_nfa`, a DfaState `d` is accepting iff some subset
recorded for it in the registrar contains an NFA accept state; the accept set
is computed from the final registrar contents. -/
theorem from_nfa_accepts_eq (nfa : Nfa) :
    (Dfa.from_nfa nfa).accepts =
      (((determinize nfa).ctx.state_map.filter
          (fun e => e.1.any (fun s => nfa.accepts.contains s))).map
        Prod.snd).toFinset := rfl

/-- C6: after `Dfa::from_nfa`, a DfaState `d` is accepting iff some subset
recorded for it in the registrar contains an NFA accept state; the accept set
is computed from the final registrar contents. -/
theorem c6_accepts_iff (nfa : Nfa) (d : Nat) :
    d ∈ (Dfa.from_nfa nfa).accepts ↔
      ∃ key, (key, d) ∈ (determinize nfa).ctx.state_map ∧
        ∃ q ∈ key, q ∈ nfa.accepts := by
  rw [from_nfa_accepts_eq, List.mem_toFinset, List.mem_map]
  constructor
  · rintro ⟨e, he, hd⟩
    rw [List.mem_filter] at he
    obtain ⟨hmem, hacc⟩ := he
    rw [List.any_eq_true] at hacc
    obtain ⟨q, hq, hq2⟩ := hacc
    exact ⟨e.1, by rw [← hd, Prod.mk.eta]; exact hmem, q, hq,
      by simpa using hq2⟩
  · rintro ⟨key, hmem, q, hq, hq2⟩
    refine ⟨(key, d), ?_, rfl⟩
    rw [List.mem_filter]
    exact ⟨hmem, List.any_eq_true.2 ⟨q, hq, by simpa using hq2⟩⟩

/-- C10 witness: the two-character pattern `a\` parses exactly like `a`, with
result `Seq [Char 'a']`; the hypotheses of the theorem hold at this input. -/
theorem c10_witness :
    parse ['a', '\\'] = parse ['a'] ∧
    parse ['a'] = Except.ok (Ast.Seq [Ast.Char 'a']) := by
  constructor
  · exact c10_trailing_backslash_ignored ['a'] ⟨[Ast.Char 'a'], [], [], false⟩
      rfl rfl
  · rfl

end RegexDfa
